import Mathlib

/-! Ordered set on an AA-tree (`src/tree.h`)

A shallow embedding of `template<class ValueType> class Set`.

Memory model.

The cells owned by one set form a tree through their `left` / `right` pointers
(every cell is owned by exactly one pointer).  An owning `Node*` is therefore
embedded as the inductive type `Tree`: `nil` is `nullptr`, and `node` is a
pointer to a cell together with everything that cell owns.  Each cell keeps

* `addr`   : the address at which the cell was allocated,
* `value`, `left`, `right`, `parent`, `level` : the five fields of `struct Node`.

The non-owning `parent` pointer and the `node_` pointer of an iterator are plain
addresses (`Option Nat`, `none` being `nullptr`); following one of them is a
lookup of the address in the tree of cells (`deref`).  `new Node` receives the
address of the fresh cell from the caller of the embedded function.

`size_t` fields (`level`, `size_`) are natural numbers, without wrap-around: `size_`
counts live cells and `level` grows by one per rotation of `Split`, so neither reaches
`2^64` in a run whose cells fit in the address space.
-/

namespace AASet

/-- An owning `Node*`: `nil` is `nullptr`, `node addr value left right parent level`
is the cell allocated at `addr` with the fields of `struct Node` (lines 9-21). -/
inductive Tree (α : Type) where
  | nil : Tree α
  | node (addr : Nat) (value : α) (left : Tree α) (right : Tree α)
      (parent : Option Nat) (level : Nat) : Tree α
  deriving DecidableEq, Repr

variable {α : Type}

/-- The address held by a `Node*` (`none` for `nullptr`). -/
def Tree.ptr : Tree α → Option Nat
  | .nil => none
  | .node a _ _ _ _ _ => some a

/-- The guarded store `if (t != nullptr) t->parent = p;`. -/
def Tree.setParent : Tree α → Option Nat → Tree α
  | .nil, _ => .nil
  | .node a v l r _ lv, p => .node a v l r p lv

/-- Reads `t->value`; the second argument is returned for `nullptr`, where the source
has no defined behaviour. -/
def Tree.valueD : Tree α → α → α
  | .nil, d => d
  | .node _ v _ _ _ _, _ => v

/-- The store `t->right = f(t->right)` (nothing happens on `nullptr`). -/
def Tree.onRight (f : Tree α → Tree α) : Tree α → Tree α
  | .nil => .nil
  | .node a v l r p lv => .node a v l (f r) p lv

/-- `DeepCopy(node, pred)`, lines 23-31.  `alloc k` is the address returned by the
`k`-th call of `new`; the counter of calls is threaded through. -/
def DeepCopy (alloc : Nat → Nat) : Tree α → Option Nat → Nat → Tree α × Nat
  | .nil, _, k => (.nil, k)
  | .node _ v l r _ lv, pred, k =>
    let new_node := alloc k
    let cl := DeepCopy alloc l (some new_node) (k + 1)
    let cr := DeepCopy alloc r (some new_node) cl.2
    (.node new_node v cl.1 cr.1 pred lv, cr.2)

/-- `Update(root)`, lines 217-227. -/
def Update : Tree α → Tree α
  | .nil => .nil
  | .node a v l r p lv => .node a v (l.setParent (some a)) (r.setParent (some a)) p lv

/-- `Skew(root)`, lines 229-250. -/
def Skew : Tree α → Tree α
  | .nil => .nil
  | .node a v .nil r p lv => .node a v .nil r p lv
  | .node a v (.node b bv bl br bp blv) r p lv =>
    if blv = lv then
      .node b bv bl (.node a v (br.setParent (some a)) r (some b) lv) p blv
    else
      .node a v (.node b bv bl br bp blv) r p lv

/-- `Split(root)`, lines 252-274. -/
def Split : Tree α → Tree α
  | .nil => .nil
  | .node a v l .nil p lv => .node a v l .nil p lv
  | .node a v l (.node b bv bl .nil bp blv) p lv =>
    .node a v l (.node b bv bl .nil bp blv) p lv
  | .node a v l (.node b bv bl (.node c cv cl cr cp clv) bp blv) p lv =>
    if lv = clv then
      .node b bv (.node a v l (bl.setParent (some a)) (some b) lv)
        (.node c cv cl cr cp clv) p (blv + 1)
    else
      .node a v l (.node b bv bl (.node c cv cl cr cp clv) bp blv) p lv

/-- The recursive `insert(root, value, was_inserted)`, lines 276-296.  The flag passed by
reference is threaded through; `fresh` is the address returned by `new Node`. -/
def insert [LinearOrder α] : Tree α → α → Bool → Nat → Tree α × Bool
  | .nil, value, _, fresh => (.node fresh value .nil .nil none 1, true)
  | .node a v l r p lv, value, was_inserted, fresh =>
    if value < v then
      let res := insert l value was_inserted fresh
      (Update (Split (Skew (.node a v (res.1.setParent (some a)) r p lv))), res.2)
    else if v < value then
      let res := insert r value was_inserted fresh
      (Update (Split (Skew (.node a v l (res.1.setParent (some a)) p lv))), res.2)
    else
      (Update (Split (Skew (.node a v l r p lv))), was_inserted)

/-- `DecreaseLevel(root)`, lines 298-310. -/
def DecreaseLevel : Tree α → Tree α
  | .node a v (.node b bv bl br bp blv) (.node c cv cl cr cp clv) p lv =>
    let opt_level := (if blv > clv then clv else blv) + 1
    if opt_level < lv then
      if opt_level < clv then
        .node a v (.node b bv bl br bp blv) (.node c cv cl cr cp opt_level) p opt_level
      else
        .node a v (.node b bv bl br bp blv) (.node c cv cl cr cp clv) p opt_level
    else
      .node a v (.node b bv bl br bp blv) (.node c cv cl cr cp clv) p lv
  | t => t

/-- The loop `while (cur->left != nullptr) cur = cur->left;` (lines 192-194, 322-324). -/
def leftmost : Tree α → Tree α
  | .nil => .nil
  | .node a v .nil r p lv => .node a v .nil r p lv
  | .node _ _ (.node b bv bl br bp blv) _ _ _ => leftmost (.node b bv bl br bp blv)

/-- The loop `while (cur->right != nullptr) cur = cur->right;` (lines 73-75, 314-316). -/
def rightmost : Tree α → Tree α
  | .nil => .nil
  | .node a v l .nil p lv => .node a v l .nil p lv
  | .node _ _ _ (.node b bv bl br bp blv) _ _ => rightmost (.node b bv bl br bp blv)

/-- `Predicator(root_)`, lines 312-318: the rightmost cell below `root_->left`. -/
def Predicator : Tree α → Tree α
  | .nil => .nil
  | .node _ _ l _ _ _ => rightmost l

/-- `Successor(root_)`, lines 320-326: the leftmost cell below `root_->right`. -/
def Successor : Tree α → Tree α
  | .nil => .nil
  | .node _ _ _ r _ _ => leftmost r

/-- The repair sequence that ends `erase`, lines 364-372. -/
def eraseRepair (root : Tree α) : Tree α :=
  let root := DecreaseLevel root
  let root := Skew root
  let root := root.onRight Skew
  let root := root.onRight (Tree.onRight Skew)
  let root := Split root
  root.onRight Split

/-- The recursive `erase(root, value, was_erased)`, lines 328-373.  The flag passed by
reference is threaded through. -/
def erase [LinearOrder α] : Tree α → α → Bool → Tree α × Bool
  | .nil, _, was_erased => (.nil, was_erased)
  | .node a v l r p lv, value, was_erased =>
    if value < v then
      let res := erase l value was_erased
      (eraseRepair (.node a v (res.1.setParent (some a)) r p lv), res.2)
    else if v < value then
      let res := erase r value was_erased
      (eraseRepair (.node a v l (res.1.setParent (some a)) p lv), res.2)
    else if l.ptr = none ∧ r.ptr = none then
      (.nil, true)
    else if l.ptr = none then
      let tmp := Successor (.node a v l r p lv)
      let res := erase r (tmp.valueD v) was_erased
      (eraseRepair (.node a (tmp.valueD v) l (res.1.setParent (some a)) p lv), res.2)
    else
      let tmp := Predicator (.node a v l r p lv)
      let res := erase l (tmp.valueD v) was_erased
      (eraseRepair (.node a (tmp.valueD v) (res.1.setParent (some a)) r p lv), res.2)

/-- The recursive `find(root, value)`, lines 375-385. -/
def find [LinearOrder α] : Tree α → α → Tree α
  | .nil, _ => .nil
  | .node a v l r p lv, value =>
    if value < v then find l value
    else if v < value then find r value
    else .node a v l r p lv

/-- The recursive `lower_bound(root, value)`, lines 387-401. -/
def lower_bound [LinearOrder α] : Tree α → α → Tree α
  | .nil, _ => .nil
  | .node a v l r p lv, value =>
    if value < v then
      match lower_bound l value with
      | .nil => .node a v l r p lv
      | it => it
    else if v < value then lower_bound r value
    else .node a v l r p lv

/-- The data members of `class Set`, lines 33-34. -/
structure Set (α : Type) where
  root_ : Tree α
  size_ : Nat
  deriving DecidableEq, Repr

/-- `Set()`, line 117. -/
def Set.mk0 : Set α := { root_ := .nil, size_ := 0 }

/-- `size()`, lines 155-157. -/
def Set.size (s : Set α) : Nat := s.size_

/-- `empty()`, lines 159-161. -/
def Set.empty (s : Set α) : Bool := s.size_ == 0

/-- `insert(value)`, lines 163-169. -/
def Set.insert [LinearOrder α] (s : Set α) (value : α) (fresh : Nat) : Set α :=
  let res := AASet.insert s.root_ value false fresh
  { root_ := res.1, size_ := if res.2 then s.size_ + 1 else s.size_ }

/-- `erase(value)`, lines 171-177. -/
def Set.erase [LinearOrder α] (s : Set α) (value : α) : Set α :=
  let res := AASet.erase s.root_ value false
  { root_ := res.1, size_ := if res.2 then s.size_ - 1 else s.size_ }

/-- `Set(begin, end)` and `Set(initializer_list)`, lines 119-134: `insert` for each element
in order, the `i`-th call of `new` (if it happens) returning `alloc i`. -/
def Set.ofList [LinearOrder α] (alloc : Nat → Nat) (xs : List α) : Set α :=
  (xs.foldl (fun (acc : Set α × Nat) x => (acc.1.insert x (alloc acc.2), acc.2 + 1))
    (Set.mk0, 0)).1

/-- `Set(const Set&)` and `operator=`, lines 136-149. -/
def Set.copy (alloc : Nat → Nat) (other : Set α) : Set α :=
  { root_ := (DeepCopy alloc other.root_ none 0).1, size_ := other.size_ }

/-- The data members of `class iterator`, lines 113-114.  `owner_` is the set the
iterator is bound to, `node_` the address of the referenced cell. -/
structure iterator (α : Type) where
  owner_ : Set α
  node_ : Option Nat
  deriving DecidableEq, Repr

/-- `find(value)`, lines 179-181. -/
def Set.find [LinearOrder α] (s : Set α) (value : α) : iterator α :=
  { owner_ := s, node_ := (AASet.find s.root_ value).ptr }

/-- `lower_bound(value)`, lines 183-185. -/
def Set.lower_bound [LinearOrder α] (s : Set α) (value : α) : iterator α :=
  { owner_ := s, node_ := (AASet.lower_bound s.root_ value).ptr }

/-- `begin()`, lines 187-196. -/
def Set.begin (s : Set α) : iterator α :=
  { owner_ := s, node_ := (leftmost s.root_).ptr }

/-- `end()`, lines 198-200. -/
def Set.end_ (s : Set α) : iterator α :=
  { owner_ := s, node_ := none }

/-- Following a pointer: the cell allocated at address `a` among the cells owned by the
tree (`nil` when there is none, a dangling pointer). -/
def deref : Tree α → Nat → Tree α
  | .nil, _ => .nil
  | .node b v l r p lv, a =>
    if a = b then .node b v l r p lv
    else
      match deref l a with
      | .nil => deref r a
      | t => t

/-- Lines 57-60 of `operator++`: the loop
`while (node_->parent != nullptr && node_->parent->left != node_) node_ = node_->parent;`
followed by `node_ = node_->parent`, started at the cell at `a`.  The result is the final
`node_`; `none` is returned when a dangling pointer is followed or after `fuel` rounds. -/
def climbUntilLeft (heap : Tree α) : Nat → Nat → Option (Option Nat)
  | 0, _ => none
  | fuel + 1, a =>
    match deref heap a with
    | .nil => none
    | .node _ _ _ _ none _ => some none
    | .node _ _ _ _ (some q) _ =>
      match deref heap q with
      | .nil => none
      | .node _ _ ql _ _ _ =>
        if ql.ptr ≠ some a then climbUntilLeft heap fuel q else some (some q)

/-- Lines 82-85 of `operator--`: the loop
`while (node_->parent != nullptr && node_->parent->right != node_) node_ = node_->parent;`
followed by `node_ = node_->parent`. -/
def climbUntilRight (heap : Tree α) : Nat → Nat → Option (Option Nat)
  | 0, _ => none
  | fuel + 1, a =>
    match deref heap a with
    | .nil => none
    | .node _ _ _ _ none _ => some none
    | .node _ _ _ _ (some q) _ =>
      match deref heap q with
      | .nil => none
      | .node _ _ _ qr _ _ =>
        if qr.ptr ≠ some a then climbUntilRight heap fuel q else some (some q)

/-- `iterator::operator++`, lines 49-62.  `none` is returned when a dangling pointer is
followed or the loop needs more than `fuel` rounds. -/
def iterator.inc (fuel : Nat) (it : iterator α) : Option (iterator α) :=
  match it.node_ with
  | none => some it
  | some a =>
    match deref it.owner_.root_ a with
    | .nil => none
    | .node b v l r p lv =>
      if r.ptr ≠ none then
        some { it with node_ := (Successor (.node b v l r p lv)).ptr }
      else
        (climbUntilLeft it.owner_.root_ fuel a).map (fun n => { it with node_ := n })

/-- `iterator::operator--`, lines 70-87.  `none` is returned when a null or dangling
pointer is followed or the loop needs more than `fuel` rounds. -/
def iterator.dec (fuel : Nat) (it : iterator α) : Option (iterator α) :=
  match it.node_ with
  | none =>
    match it.owner_.root_ with
    | .nil => none
    | .node b v l r p lv => some { it with node_ := (rightmost (.node b v l r p lv)).ptr }
  | some a =>
    match deref it.owner_.root_ a with
    | .nil => none
    | .node b v l r p lv =>
      if l.ptr ≠ none then
        some { it with node_ := (Predicator (.node b v l r p lv)).ptr }
      else
        (climbUntilRight it.owner_.root_ fuel a).map (fun n => { it with node_ := n })

/-- `iterator::operator*`, lines 103-105 (`none` for the end iterator or a dangling one). -/
def iterator.star (it : iterator α) : Option α :=
  match it.node_ with
  | none => none
  | some a =>
    match deref it.owner_.root_ a with
    | .nil => none
    | .node _ v _ _ _ _ => some v

/-! ## Observations used to state the properties -/

/-- The values met by an in-order walk (left subtree, cell, right subtree). -/
def inorder : Tree α → List α
  | .nil => []
  | .node _ v l r _ _ => inorder l ++ v :: inorder r

/-- The addresses of the cells met by an in-order walk. -/
def addrs : Tree α → List Nat
  | .nil => []
  | .node a _ l r _ _ => addrs l ++ a :: addrs r

/-- The number of cells reachable from the root. -/
def count : Tree α → Nat
  | .nil => 0
  | .node _ _ l r _ _ => count l + 1 + count r

/-- A tree without its addresses and parent pointers: shape, values and levels. -/
inductive Shape (α : Type) where
  | nil : Shape α
  | node (value : α) (left : Shape α) (right : Shape α) (level : Nat) : Shape α
  deriving DecidableEq, Repr

/-- Shape, values and levels of a tree of cells. -/
def shape : Tree α → Shape α
  | .nil => .nil
  | .node _ v l r _ lv => .node v (shape l) (shape r) lv

/-- BST order (data-model invariant 1): at every cell, all values of the left subtree are
below the value of the cell and all values of the right subtree are above it. -/
def BST [LinearOrder α] : Tree α → Prop
  | .nil => True
  | .node _ v l r _ _ =>
    BST l ∧ BST r ∧ (∀ x ∈ inorder l, x < v) ∧ (∀ x ∈ inorder r, v < x)

/-- Parent links (data-model invariants 3 and 4) below a pointer whose cell is expected to
have parent `q`: the root cell has parent `q` and every other cell has the address of the
cell that owns it. -/
def ParentOK : Tree α → Option Nat → Prop
  | .nil, _ => True
  | .node a _ l r p _, q => p = q ∧ ParentOK l (some a) ∧ ParentOK r (some a)

/-- The level read through a child pointer, a missing child counting as level 0. -/
def lvl : Tree α → Nat
  | .nil => 0
  | .node _ _ _ _ _ lv => lv

/-- The right child read through a pointer (`nullptr` below `nullptr`). -/
def Tree.rightOf : Tree α → Tree α
  | .nil => .nil
  | .node _ _ _ r _ _ => r

/-- The AA level rules (data-model invariant 2), a missing child counting as level 0: the
left child is exactly one level below its parent, the right child is at the same level or
one below, and no right grandchild is at the level of its grandparent. -/
def AAValid : Tree α → Prop
  | .nil => True
  | .node _ _ l r _ lv =>
    AAValid l ∧ AAValid r ∧ lvl l + 1 = lv ∧ (lvl r = lv ∨ lvl r + 1 = lv) ∧
      lvl r.rightOf ≠ lv

/-- The sets that can be obtained from the empty set by `insert` and `erase` calls; every
`new Node` returns an address that is not the address of a live cell. -/
inductive Reachable [LinearOrder α] : Set α → Prop
  | empty : Reachable Set.mk0
  | insert (s : Set α) (value : α) (fresh : Nat) :
      Reachable s → fresh ∉ addrs s.root_ → Reachable (s.insert value fresh)
  | erase (s : Set α) (value : α) : Reachable s → Reachable (s.erase value)

/-- The number of cells on the longest path from the root down to a leaf. -/
def height : Tree α → Nat
  | .nil => 0
  | .node _ _ l r _ _ => max (height l) (height r) + 1

/-- The first address of a list, or `up` when the list is empty. -/
def headOr (xs : List Nat) (up : Option Nat) : Option Nat :=
  match xs with
  | [] => up
  | y :: _ => some y

/-- The address that follows `a` in a list of addresses, or `up` when `a` is the last one. -/
def succIn : List Nat → Nat → Option Nat → Option Nat
  | [], _, up => up
  | x :: xs, a, up => if x = a then headOr xs up else succIn xs a up

/-- The pointer stored in `node_` by `operator++` when `node_` is the address `a`. -/
def nextPtr (heap : Tree α) (fuel : Nat) (a : Nat) : Option (Option Nat) :=
  match deref heap a with
  | .nil => none
  | .node b v l r p lv =>
    if r.ptr ≠ none then some (Successor (.node b v l r p lv)).ptr
    else climbUntilLeft heap fuel a

/-- `operator++` applied `n` times. -/
def iterator.incN (it : iterator α) (fuel : Nat) : Nat → Option (iterator α)
  | 0 => some it
  | n + 1 => (it.incN fuel n).bind fun j => j.inc fuel

/-- The pointer stored in `node_` by `operator--` when `node_` is the address `a`. -/
def prevPtr (heap : Tree α) (fuel : Nat) (a : Nat) : Option (Option Nat) :=
  match deref heap a with
  | .nil => none
  | .node b v l r p lv =>
    if l.ptr ≠ none then some (Predicator (.node b v l r p lv)).ptr
    else climbUntilRight heap fuel a

/-- `operator--` applied `n` times. -/
def iterator.decN (it : iterator α) (fuel : Nat) : Nat → Option (iterator α)
  | 0 => some it
  | n + 1 => (it.decN fuel n).bind fun j => j.dec fuel

/-- The cells met by an in-order walk, each with its address, value and level. -/
def cells : Tree α → List (Nat × α × Nat)
  | .nil => []
  | .node a v l r _ lv => cells l ++ (a, v, lv) :: cells r

/-- The sets obtained from the empty set by `insert` calls only. -/
inductive InsertOnly [LinearOrder α] : Set α → Prop
  | empty : InsertOnly Set.mk0
  | insert (s : Set α) (value : α) (fresh : Nat) :
      InsertOnly s → fresh ∉ addrs s.root_ → InsertOnly (s.insert value fresh)

/-- The AA level rules can be checked by a walk of the tree. -/
instance AAValid.instDecidable : (t : Tree α) → Decidable (AAValid t)
  | .nil => isTrue trivial
  | .node _ _ l r _ lv =>
    letI := AAValid.instDecidable l
    letI := AAValid.instDecidable r
    inferInstanceAs (Decidable (AAValid l ∧ AAValid r ∧ lvl l + 1 = lv ∧
      (lvl r = lv ∨ lvl r + 1 = lv) ∧ lvl r.rightOf ≠ lv))

/-- One call of a public mutator: `insert(value)`, with the address returned by `new Node`
if a cell is allocated, or `erase(value)`. -/
inductive Call (α : Type) where
  | insert (value : α) (fresh : Nat) : Call α
  | erase (value : α) : Call α

/-- The set after one call. -/
def Set.call [LinearOrder α] (s : Set α) : Call α → Set α
  | .insert value fresh => s.insert value fresh
  | .erase value => s.erase value

/-- The set after a sequence of calls. -/
def Set.run [LinearOrder α] (s : Set α) (calls : List (Call α)) : Set α :=
  calls.foldl Set.call s

/-- Whether every address handed out by `new` during a sequence of calls is the address of
no live cell at that moment. -/
def freshCalls [LinearOrder α] (s : Set α) : List (Call α) → Bool
  | [] => true
  | .insert value fresh :: calls =>
    decide (fresh ∉ addrs s.root_) && freshCalls (s.insert value fresh) calls
  | .erase value :: calls => freshCalls (s.erase value) calls

/-- The set {1, 2, 3} after `insert(1)`, `insert(2)`, `insert(3)`. -/
def sample123 : Set Nat :=
  Set.mk0.run [.insert 1 16, .insert 2 32, .insert 3 48]

/-- Eleven calls after which the root has level 3 above children of levels 1 and 2. -/
def callsHighRoot : List (Call Nat) :=
  [.insert 1 16, .insert 2 32, .insert 3 48, .erase 2, .insert 2 64, .insert 4 80, .erase 3,
    .insert 3 96, .insert 5 112, .erase 1, .insert 1 128]

/-- Twenty-two calls after which the six cells form a single right-going path. -/
def callsChain : List (Call Nat) :=
  [.insert 1 16, .insert 2 32, .insert 3 48, .erase 2, .insert 2 64, .insert 4 80, .erase 2,
    .insert 5 96, .insert 6 112, .erase 3, .insert 2 128, .insert 3 144, .erase 3, .erase 5,
    .insert 5 160, .insert 7 176, .erase 4, .insert 3 192, .insert 4 208, .erase 1, .erase 6,
    .insert 6 224]

/-- The set {1, 3, 5, 7}, built by the initializer-list constructor. -/
def sample1357 : Set Nat := Set.ofList (fun i => 16 * (i + 1)) [1, 3, 5, 7]

/-- The set {3, 7, 8}, obtained from the empty set by inserting 5, 3, 8, 7 and erasing 5. -/
def sample378 : Set Nat :=
  ((((Set.mk0.insert 5 16).insert 3 32).insert 8 48).insert 7 64).erase 5

/-! ## Basic facts about the observations -/

section Basic

@[simp] theorem inorder_nil : inorder (Tree.nil : Tree α) = [] := rfl

@[simp] theorem inorder_node (a : Nat) (v : α) (l r : Tree α) (p : Option Nat) (lv : Nat) :
    inorder (.node a v l r p lv) = inorder l ++ v :: inorder r := rfl

@[simp] theorem addrs_nil : addrs (Tree.nil : Tree α) = [] := rfl

@[simp] theorem addrs_node (a : Nat) (v : α) (l r : Tree α) (p : Option Nat) (lv : Nat) :
    addrs (.node a v l r p lv) = addrs l ++ a :: addrs r := rfl

@[simp] theorem inorder_setParent (t : Tree α) (q : Option Nat) :
    inorder (t.setParent q) = inorder t := by
  cases t <;> rfl

@[simp] theorem addrs_setParent (t : Tree α) (q : Option Nat) :
    addrs (t.setParent q) = addrs t := by
  cases t <;> rfl

@[simp] theorem inorder_Update (t : Tree α) : inorder (Update t) = inorder t := by
  cases t <;> simp [Update]

@[simp] theorem addrs_Update (t : Tree α) : addrs (Update t) = addrs t := by
  cases t <;> simp [Update]

@[simp] theorem inorder_Skew (t : Tree α) : inorder (Skew t) = inorder t := by
  rcases t with _ | ⟨a, v, l, r, p, lv⟩
  · rfl
  · rcases l with _ | ⟨b, bv, bl, br, bp, blv⟩
    · rfl
    · simp only [Skew]; split <;> simp

@[simp] theorem addrs_Skew (t : Tree α) : addrs (Skew t) = addrs t := by
  rcases t with _ | ⟨a, v, l, r, p, lv⟩
  · rfl
  · rcases l with _ | ⟨b, bv, bl, br, bp, blv⟩
    · rfl
    · simp only [Skew]; split <;> simp

@[simp] theorem inorder_Split (t : Tree α) : inorder (Split t) = inorder t := by
  rcases t with _ | ⟨a, v, l, r, p, lv⟩
  · rfl
  · rcases r with _ | ⟨b, bv, bl, br, bp, blv⟩
    · rfl
    · rcases br with _ | ⟨c, cv, cl, cr, cp, clv⟩
      · rfl
      · simp only [Split]; split <;> simp

@[simp] theorem addrs_Split (t : Tree α) : addrs (Split t) = addrs t := by
  rcases t with _ | ⟨a, v, l, r, p, lv⟩
  · rfl
  · rcases r with _ | ⟨b, bv, bl, br, bp, blv⟩
    · rfl
    · rcases br with _ | ⟨c, cv, cl, cr, cp, clv⟩
      · rfl
      · simp only [Split]; split <;> simp

@[simp] theorem inorder_DecreaseLevel (t : Tree α) : inorder (DecreaseLevel t) = inorder t := by
  unfold DecreaseLevel
  split
  · simp only []; split_ifs <;> simp
  · rfl

@[simp] theorem addrs_DecreaseLevel (t : Tree α) : addrs (DecreaseLevel t) = addrs t := by
  unfold DecreaseLevel
  split
  · simp only []; split_ifs <;> simp
  · rfl

theorem inorder_onRight (f : Tree α → Tree α) (hf : ∀ t, inorder (f t) = inorder t)
    (t : Tree α) : inorder (t.onRight f) = inorder t := by
  cases t <;> simp [Tree.onRight, hf]

theorem addrs_onRight (f : Tree α → Tree α) (hf : ∀ t, addrs (f t) = addrs t)
    (t : Tree α) : addrs (t.onRight f) = addrs t := by
  cases t <;> simp [Tree.onRight, hf]

@[simp] theorem inorder_eraseRepair (t : Tree α) : inorder (eraseRepair t) = inorder t := by
  simp [eraseRepair, inorder_onRight]

@[simp] theorem addrs_eraseRepair (t : Tree α) : addrs (eraseRepair t) = addrs t := by
  simp [eraseRepair, addrs_onRight]

theorem length_inorder (t : Tree α) : (inorder t).length = count t := by
  induction t with
  | nil => rfl
  | node a v l r p lv ihl ihr => simp [count, ihl, ihr]; omega

theorem length_addrs (t : Tree α) : (addrs t).length = count t := by
  induction t with
  | nil => rfl
  | node a v l r p lv ihl ihr => simp [count, ihl, ihr]; omega

theorem BST_iff_sorted [LinearOrder α] (t : Tree α) :
    BST t ↔ (inorder t).Sorted (· < ·) := by
  induction t with
  | nil => simp [BST]
  | node a v l r p lv ihl ihr =>
    simp only [BST, inorder_node, List.Sorted, List.pairwise_append, List.pairwise_cons,
      List.mem_cons, ihl, ihr]
    constructor
    · rintro ⟨hl, hr, hlv, hrv⟩
      refine ⟨hl, ⟨hrv, hr⟩, ?_⟩
      rintro x hx y (rfl | hy)
      · exact hlv x hx
      · exact (hlv x hx).trans (hrv y hy)
    · rintro ⟨hl, ⟨hrv, hr⟩, h⟩
      exact ⟨hl, hr, fun x hx => h x hx v (Or.inl rfl), hrv⟩

end Basic

/-! ## Insertion -/

section InsertFacts
variable [LinearOrder α]

theorem eq_of_not_lt_of_not_lt {x y : α} (h1 : ¬ x < y) (h2 : ¬ y < x) : x = y :=
  le_antisymm (not_lt.1 h2) (not_lt.1 h1)

theorem mem_inorder_insert (t : Tree α) (v : α) (w : Bool) (f : Nat) (x : α) :
    x ∈ inorder (insert t v w f).1 ↔ x = v ∨ x ∈ inorder t := by
  induction t generalizing w with
  | nil => simp [insert]
  | node a u l r p lv ihl ihr =>
    simp only [insert]
    split_ifs with h1 h2
    · simp [ihl]; tauto
    · simp [ihr]; tauto
    · have := eq_of_not_lt_of_not_lt h1 h2
      subst this
      simp; tauto

theorem BST_insert (t : Tree α) (v : α) (w : Bool) (f : Nat) (h : BST t) :
    BST (insert t v w f).1 := by
  induction t generalizing w with
  | nil => simp [insert, BST]
  | node a u l r p lv ihl ihr =>
    obtain ⟨hl, hr, hlu, hru⟩ := h
    have key : ∀ l2 r2 : Tree α, BST l2 → BST r2 → (∀ x ∈ inorder l2, x < u) →
        (∀ x ∈ inorder r2, u < x) → BST (Update (Split (Skew (.node a u l2 r2 p lv)))) := by
      intro l2 r2 h1 h2 h3 h4
      have : BST (.node a u l2 r2 p lv) := ⟨h1, h2, h3, h4⟩
      rw [BST_iff_sorted] at this ⊢
      simpa using this
    simp only [insert]
    split_ifs with h1 h2
    · refine key _ _ ?_ hr ?_ hru
      · have := ihl w hl
        rw [BST_iff_sorted] at this ⊢
        simpa using this
      · intro x hx
        simp only [inorder_setParent, mem_inorder_insert] at hx
        rcases hx with rfl | hx
        · exact h1
        · exact hlu x hx
    · refine key _ _ hl ?_ hlu ?_
      · have := ihr w hr
        rw [BST_iff_sorted] at this ⊢
        simpa using this
      · intro x hx
        simp only [inorder_setParent, mem_inorder_insert] at hx
        rcases hx with rfl | hx
        · exact h2
        · exact hru x hx
    · exact key _ _ hl hr hlu hru

theorem insert_flag (t : Tree α) (v : α) (w : Bool) (f : Nat) (h : BST t) :
    (insert t v w f).2 = (w || decide (v ∉ inorder t)) := by
  induction t generalizing w with
  | nil => simp [insert]
  | node a u l r p lv ihl ihr =>
    obtain ⟨hl, hr, hlu, hru⟩ := h
    simp only [insert]
    split_ifs with h1 h2
    · rw [ihl w hl]
      congr 2
      simp only [inorder_node, List.mem_append, List.mem_cons, eq_iff_iff, not_or]
      constructor
      · intro h; exact ⟨h, ⟨ne_of_lt h1, fun h' => lt_asymm h1 (hru _ h')⟩⟩
      · intro h; exact h.1
    · rw [ihr w hr]
      congr 2
      simp only [inorder_node, List.mem_append, List.mem_cons, eq_iff_iff, not_or]
      constructor
      · intro h; exact ⟨fun h' => lt_asymm h2 (hlu _ h'), ⟨ne_of_gt h2, h⟩⟩
      · intro h; exact h.2.2
    · have := eq_of_not_lt_of_not_lt h1 h2
      subst this
      simp

theorem find_eq_nil_iff (t : Tree α) (v : α) (h : BST t) :
    find t v = .nil ↔ v ∉ inorder t := by
  induction t with
  | nil => simp [find]
  | node a u l r p lv ihl ihr =>
    obtain ⟨hl, hr, hlu, hru⟩ := h
    simp only [find]
    split_ifs with h1 h2
    · rw [ihl hl]
      simp only [inorder_node, List.mem_append, List.mem_cons, not_or]
      exact ⟨fun h => ⟨h, ⟨ne_of_lt h1, fun h' => lt_asymm h1 (hru _ h')⟩⟩, fun h => h.1⟩
    · rw [ihr hr]
      simp only [inorder_node, List.mem_append, List.mem_cons, not_or]
      exact ⟨fun h => ⟨fun h' => lt_asymm h2 (hlu _ h'), ⟨ne_of_gt h2, h⟩⟩, fun h => h.2.2⟩
    · have := eq_of_not_lt_of_not_lt h1 h2
      subst this
      simp

theorem find_value (t : Tree α) (v : α) :
    find t v = .nil ∨ ∃ a l r p lv, find t v = .node a v l r p lv := by
  induction t with
  | nil => simp [find]
  | node a u l r p lv ihl ihr =>
    simp only [find]
    split_ifs with h1 h2
    · exact ihl
    · exact ihr
    · have := eq_of_not_lt_of_not_lt h1 h2
      subst this
      exact Or.inr ⟨_, _, _, _, _, rfl⟩

end InsertFacts

/-! ## Erasure -/


theorem ptr_eq_none_iff (t : Tree α) : t.ptr = none ↔ t = .nil := by
  cases t <;> simp [Tree.ptr]

theorem inorder_leftmost (t : Tree α) (d : α) (h : t ≠ .nil) :
    ∃ tl, inorder t = (leftmost t).valueD d :: tl := by
  induction t with
  | nil => exact absurd rfl h
  | node a u l r p lv ihl _ =>
    rcases l with _ | ⟨b, bv, bl, br, bp, blv⟩
    · exact ⟨inorder r, by simp [leftmost, Tree.valueD]⟩
    · obtain ⟨tl, htl⟩ := ihl (by simp)
      exact ⟨tl ++ u :: inorder r, by rw [inorder_node, htl]; simp [leftmost]⟩

theorem inorder_rightmost (t : Tree α) (d : α) (h : t ≠ .nil) :
    ∃ ini, inorder t = ini ++ [(rightmost t).valueD d] := by
  induction t with
  | nil => exact absurd rfl h
  | node a u l r p lv _ ihr =>
    rcases r with _ | ⟨b, bv, bl, br, bp, blv⟩
    · exact ⟨inorder l, by simp [rightmost, Tree.valueD]⟩
    · obtain ⟨ini, hini⟩ := ihr (by simp)
      exact ⟨inorder l ++ u :: ini, by rw [inorder_node, hini]; simp [rightmost]⟩

section EraseFacts
variable [LinearOrder α]

theorem inorder_erase (t : Tree α) (v : α) (w : Bool) (h : BST t) :
    inorder (erase t v w).1 = (inorder t).erase v := by
  induction t generalizing v w with
  | nil => simp [erase]
  | node a u l r p lv ihl ihr =>
    obtain ⟨hl, hr, hlu, hru⟩ := h
    simp only [erase]
    split_ifs with h1 h2 h3 h4
    · have hne : u ≠ v := ne_of_gt h1
      have hvr : v ∉ inorder r := fun h' => lt_asymm h1 (hru _ h')
      simp only [inorder_eraseRepair, inorder_node, inorder_setParent, ihl v w hl]
      by_cases hv : v ∈ inorder l
      · rw [List.erase_append_left _ hv]
      · rw [List.erase_append_right _ hv, List.erase_of_not_mem hv, List.erase_cons_tail (by simpa using hne),
          List.erase_of_not_mem hvr]
    · have hne : u ≠ v := ne_of_lt h2
      have hvl : v ∉ inorder l := fun h' => lt_asymm h2 (hlu _ h')
      simp only [inorder_eraseRepair, inorder_node, inorder_setParent, ihr v w hr]
      rw [List.erase_append_right _ hvl, List.erase_cons_tail (by simpa using hne)]
    · have := eq_of_not_lt_of_not_lt h1 h2
      subst this
      rw [ptr_eq_none_iff, ptr_eq_none_iff] at h3
      obtain ⟨rfl, rfl⟩ := h3
      simp
    · have := eq_of_not_lt_of_not_lt h1 h2
      subst this
      rw [ptr_eq_none_iff] at h4
      subst h4
      have hrn : r ≠ .nil := by
        intro h; apply h3; simp [h, Tree.ptr]
      obtain ⟨tl, htl⟩ := inorder_leftmost r v hrn
      simp only [inorder_eraseRepair, inorder_node, inorder_setParent, Successor, ihr _ w hr,
        inorder_nil, List.nil_append, List.erase_cons_head]
      rw [htl]
      simp
    · have := eq_of_not_lt_of_not_lt h1 h2
      subst this
      have hln : l ≠ .nil := by
        intro h; apply h4; simp [h, Tree.ptr]
      obtain ⟨ini, hini⟩ := inorder_rightmost l v hln
      have hvl : v ∉ inorder l := fun h' => lt_irrefl _ (hlu _ h')
      have hnd : (inorder l).Nodup := ((BST_iff_sorted l).1 hl).nodup
      simp only [inorder_eraseRepair, inorder_node, inorder_setParent, Predicator, ihl _ w hl]
      rw [List.erase_append_right _ hvl, List.erase_cons_head]
      rw [hini] at hnd ⊢
      have hp : (rightmost l).valueD v ∉ ini := by
        intro hmem
        have := List.nodup_append.1 hnd
        exact this.2.2 hmem (by simp)
      rw [List.erase_append_right _ hp]
      simp

theorem erase_flag (t : Tree α) (v : α) (w : Bool) (h : BST t) :
    (erase t v w).2 = (w || decide (v ∈ inorder t)) := by
  induction t generalizing v w with
  | nil => simp [erase]
  | node a u l r p lv ihl ihr =>
    obtain ⟨hl, hr, hlu, hru⟩ := h
    simp only [erase]
    split_ifs with h1 h2 h3 h4
    · have hne : v ≠ u := ne_of_lt h1
      have hvr : v ∉ inorder r := fun h' => lt_asymm h1 (hru _ h')
      rw [ihl v w hl]
      simp [hne, hvr]
    · have hne : v ≠ u := ne_of_gt h2
      have hvl : v ∉ inorder l := fun h' => lt_asymm h2 (hlu _ h')
      rw [ihr v w hr]
      simp [hne, hvl]
    · have := eq_of_not_lt_of_not_lt h1 h2
      subst this
      simp
    · have := eq_of_not_lt_of_not_lt h1 h2
      subst this
      have hrn : r ≠ .nil := by
        intro h; apply h3; rw [ptr_eq_none_iff] at h4; simp [h, h4, Tree.ptr]
      obtain ⟨tl, htl⟩ := inorder_leftmost r v hrn
      rw [ihr _ w hr]
      simp [Successor, htl]
    · have := eq_of_not_lt_of_not_lt h1 h2
      subst this
      have hln : l ≠ .nil := by
        intro h; apply h4; simp [h, Tree.ptr]
      obtain ⟨ini, hini⟩ := inorder_rightmost l v hln
      rw [ihl _ w hl]
      simp [Predicator, hini]

theorem BST_erase (t : Tree α) (v : α) (w : Bool) (h : BST t) : BST (erase t v w).1 := by
  rw [BST_iff_sorted] at h ⊢
  rw [inorder_erase t v w ((BST_iff_sorted t).2 h)]
  exact h.sublist (List.erase_sublist v _)

theorem mem_inorder_erase (t : Tree α) (v : α) (w : Bool) (h : BST t) (x : α) :
    x ∈ inorder (erase t v w).1 ↔ x ∈ inorder t ∧ x ≠ v := by
  rw [inorder_erase t v w h, ((BST_iff_sorted t).1 h).nodup.mem_erase_iff]
  tauto

end EraseFacts

/-! ## Contracts of `insert` and `erase` -/

section Contracts
variable [LinearOrder α]

/-- C1. Insert postcondition: on a tree in BST order, the tree returned by `insert` is again
in BST order (its in-order value sequence is strictly increasing), its values are exactly the
old values together with the inserted one, and `find` of the inserted value on the result
returns a cell holding that value (not `nullptr`). -/
theorem insert_postcondition (t : Tree α) (v : α) (w : Bool) (fresh : Nat) (h : BST t) :
    BST (insert t v w fresh).1 ∧
    (inorder (insert t v w fresh).1).Sorted (· < ·) ∧
    (∀ x, x ∈ inorder (insert t v w fresh).1 ↔ x ∈ inorder t ∨ x = v) ∧
    (∃ a l r p lv, find (insert t v w fresh).1 v = .node a v l r p lv) := by
  have hb := BST_insert t v w fresh h
  refine ⟨hb, (BST_iff_sorted _).1 hb, fun x => ?_, ?_⟩
  · rw [mem_inorder_insert]; tauto
  · rcases find_value (insert t v w fresh).1 v with hnil | hex
    · exact absurd ((mem_inorder_insert t v w fresh v).2 (Or.inl rfl))
        ((find_eq_nil_iff _ v hb).1 hnil)
    · exact hex

theorem insert_postcondition_witness :
    BST sample1357.root_ ∧ BST (insert sample1357.root_ 4 false 80).1 :=
  ⟨(BST_iff_sorted _).2 (by decide),
    (insert_postcondition sample1357.root_ 4 false 80 ((BST_iff_sorted _).2 (by decide))).1⟩

/-- C2. Erase postcondition: on a tree in BST order, the tree returned by `erase` is again in
BST order, its values are exactly the old values without the erased one, `find` of the erased
value on the result returns `nullptr`, the flag is raised exactly when the value was stored,
and at a matched cell with children the recursive erase of the successor (predecessor) value
succeeds. -/
theorem erase_postcondition (t : Tree α) (v : α) (w : Bool) (h : BST t) :
    BST (erase t v w).1 ∧
    (∀ x, x ∈ inorder (erase t v w).1 ↔ x ∈ inorder t ∧ x ≠ v) ∧
    find (erase t v w).1 v = .nil ∧
    (erase t v w).2 = (w || decide (v ∈ inorder t)) ∧
    (∀ a l r p lv, t = .node a v l r p lv →
      (l = .nil → r ≠ .nil → (erase r ((Successor t).valueD v) w).2 = true) ∧
      (l ≠ .nil → (erase l ((Predicator t).valueD v) w).2 = true)) := by
  have hb := BST_erase t v w h
  refine ⟨hb, mem_inorder_erase t v w h, ?_, erase_flag t v w h, ?_⟩
  · rw [find_eq_nil_iff _ v hb, mem_inorder_erase t v w h]
    simp
  · rintro a l r p lv rfl
    obtain ⟨hl, hr, -, -⟩ := h
    constructor
    · intro _ hrn
      obtain ⟨tl, htl⟩ := inorder_leftmost r v hrn
      rw [erase_flag r _ w hr]
      simp [Successor, htl]
    · intro hln
      obtain ⟨ini, hini⟩ := inorder_rightmost l v hln
      rw [erase_flag l _ w hl]
      simp [Predicator, hini]

theorem erase_postcondition_witness :
    BST sample1357.root_ ∧ find (erase sample1357.root_ 3 false).1 3 = .nil :=
  ⟨(BST_iff_sorted _).2 (by decide),
    (erase_postcondition sample1357.root_ 3 false ((BST_iff_sorted _).2 (by decide))).2.2.1⟩

end Contracts

/-! ## The size counter -/

section SizeFacts
variable [LinearOrder α]

theorem count_insert (t : Tree α) (v : α) (w : Bool) (f : Nat) (h : BST t) :
    count (insert t v w f).1 = if v ∈ inorder t then count t else count t + 1 := by
  have hs := (BST_iff_sorted _).1 (BST_insert t v w f h)
  have ht := (BST_iff_sorted _).1 h
  rw [← length_inorder, ← length_inorder]
  split_ifs with hv
  · refine List.Perm.length_eq ((List.perm_ext_iff_of_nodup hs.nodup ht.nodup).2 fun x => ?_)
    rw [mem_inorder_insert]
    constructor
    · rintro (rfl | hx)
      · exact hv
      · exact hx
    · exact Or.inr
  · have hnd : (v :: inorder t).Nodup := List.nodup_cons.2 ⟨hv, ht.nodup⟩
    have := List.Perm.length_eq ((List.perm_ext_iff_of_nodup hs.nodup hnd).2 fun x => by
      rw [mem_inorder_insert, List.mem_cons])
    simpa using this

theorem count_erase (t : Tree α) (v : α) (w : Bool) (h : BST t) :
    count (erase t v w).1 = if v ∈ inorder t then count t - 1 else count t := by
  rw [← length_inorder, ← length_inorder, inorder_erase t v w h]
  split_ifs with hv
  · rw [List.length_erase_of_mem hv]
  · rw [List.erase_of_not_mem hv]

theorem Reachable.BST_root {s : Set α} (h : Reachable s) : BST s.root_ := by
  induction h with
  | empty => simp [Set.mk0, BST]
  | insert s v f _ _ ih => exact BST_insert _ _ _ _ ih
  | erase s v _ ih => exact BST_erase _ _ _ ih

theorem Reachable.size_eq {s : Set α} (h : Reachable s) : s.size_ = count s.root_ := by
  induction h with
  | empty => simp [Set.mk0, count]
  | insert s v f hs _ ih =>
    have hb := hs.BST_root
    simp only [Set.insert, insert_flag _ _ _ _ hb, count_insert _ _ _ _ hb, ih]
    by_cases hv : v ∈ inorder s.root_ <;> simp [hv]
  | erase s v hs ih =>
    have hb := hs.BST_root
    simp only [Set.erase, erase_flag _ _ _ hb, count_erase _ _ _ hb, ih]
    by_cases hv : v ∈ inorder s.root_ <;> simp [hv]

end SizeFacts

section SizeContract
variable [LinearOrder α]

/-- C3. Size consistency: for every set reachable from the empty set by `insert` and `erase`
calls, `size()` is the number of cells of the tree, which is the number of distinct stored
values; `insert` adds exactly one to it when the value was absent and nothing when it was
present; `erase` takes exactly one from it when the value was present and nothing when it was
absent; and `empty()` holds exactly when `size()` is 0. -/
theorem size_consistency (s : Set α) (h : Reachable s) :
    s.size = count s.root_ ∧ s.size = (inorder s.root_).length ∧ (inorder s.root_).Nodup ∧
    (∀ v fresh, (s.insert v fresh).size = if v ∈ inorder s.root_ then s.size else s.size + 1) ∧
    (∀ v, (s.erase v).size + (if v ∈ inorder s.root_ then 1 else 0) = s.size) ∧
    (s.empty = true ↔ s.size = 0) := by
  have hb := h.BST_root
  have hsz := h.size_eq
  refine ⟨hsz, by rw [length_inorder]; exact hsz, ((BST_iff_sorted _).1 hb).nodup, ?_, ?_, ?_⟩
  · intro v fresh
    simp only [Set.size, Set.insert, insert_flag _ _ _ _ hb]
    by_cases hv : v ∈ inorder s.root_ <;> simp [hv]
  · intro v
    simp only [Set.size, Set.erase, erase_flag _ _ _ hb]
    by_cases hv : v ∈ inorder s.root_
    · have hpos : 0 < count s.root_ := by
        rw [← length_inorder]; exact List.length_pos_of_mem hv
      simp [hv]; omega
    · simp [hv]
  · simp [Set.empty, Set.size]

theorem size_consistency_witness :
    Reachable ((Set.mk0 : Set Nat).insert 5 16) ∧ ((Set.mk0 : Set Nat).insert 5 16).size = 1 :=
  ⟨Reachable.insert _ _ _ Reachable.empty (by decide),
    (size_consistency _ (Reachable.insert _ _ _ Reachable.empty (by decide))).1⟩

end SizeContract

/-! ## Lookup: `lower_bound`, `find` and construction from a sequence -/

section LookupContracts
variable [LinearOrder α]

theorem lower_bound_spec (t : Tree α) (v : α) (h : BST t) :
    (lower_bound t v = .nil ↔ ∀ x ∈ inorder t, x < v) ∧
    (∀ a u l r p lv, lower_bound t v = .node a u l r p lv →
      u ∈ inorder t ∧ ¬ u < v ∧ ∀ x ∈ inorder t, ¬ x < v → u ≤ x) := by
  induction t with
  | nil => simp [lower_bound]
  | node a u l r p lv ihl ihr =>
    obtain ⟨hl, hr, hlu, hru⟩ := h
    obtain ⟨ihl1, ihl2⟩ := ihl hl
    obtain ⟨ihr1, ihr2⟩ := ihr hr
    simp only [lower_bound]
    split_ifs with h1 h2
    · cases hlb : lower_bound l v with
      | nil =>
        have hall := ihl1.1 hlb
        refine ⟨⟨fun h => by simp at h, fun h => absurd (h u (by simp)) (lt_asymm h1)⟩, ?_⟩
        intro a' u' l' r' p' lv' heq
        simp only [Tree.node.injEq] at heq
        obtain ⟨-, rfl, -⟩ := heq
        refine ⟨by simp, lt_asymm h1, fun x hx hxv => ?_⟩
        simp only [inorder_node, List.mem_append, List.mem_cons] at hx
        rcases hx with hx | rfl | hx
        · exact absurd (hall x hx) hxv
        · exact le_refl _
        · exact le_of_lt (hru x hx)
      | node b bv bl br bp blv =>
        obtain ⟨hm, hnv, hmin⟩ := ihl2 _ _ _ _ _ _ hlb
        refine ⟨⟨fun h => by simp at h, fun h => absurd (h u (by simp)) (lt_asymm h1)⟩, ?_⟩
        intro a' u' l' r' p' lv' heq
        simp only [Tree.node.injEq] at heq
        obtain ⟨-, rfl, -⟩ := heq
        refine ⟨by simp [hm], hnv, fun x hx hxv => ?_⟩
        simp only [inorder_node, List.mem_append, List.mem_cons] at hx
        rcases hx with hx | rfl | hx
        · exact hmin x hx hxv
        · exact le_of_lt (hlu _ hm)
        · exact le_of_lt ((hlu _ hm).trans (hru x hx))
    · constructor
      · rw [ihr1]
        simp only [inorder_node, List.mem_append, List.mem_cons]
        constructor
        · rintro h x (hx | rfl | hx)
          · exact (hlu x hx).trans h2
          · exact h2
          · exact h x hx
        · intro h x hx; exact h x (Or.inr (Or.inr hx))
      · intro a' u' l' r' p' lv' heq
        obtain ⟨hm, hnv, hmin⟩ := ihr2 _ _ _ _ _ _ heq
        refine ⟨by simp [hm], hnv, fun x hx hxv => ?_⟩
        simp only [inorder_node, List.mem_append, List.mem_cons] at hx
        rcases hx with hx | rfl | hx
        · exact absurd ((hlu x hx).trans h2) hxv
        · exact absurd h2 hxv
        · exact hmin x hx hxv
    · have := eq_of_not_lt_of_not_lt h1 h2
      subst this
      refine ⟨⟨fun h => by simp at h, fun h => absurd (h v (by simp)) (lt_irrefl _)⟩, ?_⟩
      intro a' u' l' r' p' lv' heq
      simp only [Tree.node.injEq] at heq
      obtain ⟨-, rfl, -⟩ := heq
      refine ⟨by simp, lt_irrefl _, fun x hx hxv => not_lt.1 hxv⟩

/-- C4. Lower bound: on a tree in BST order, `lower_bound` returns `nullptr` exactly when
every stored value is less than the query, and otherwise returns a cell whose value is stored,
is not less than the query, and is the smallest such value.  Over {1, 3, 5, 7} it yields 3 for
query 2, 3 for query 3, 5 for query 4 and the end iterator for query 8. -/
theorem lower_bound_contract (t : Tree α) (v : α) (h : BST t) :
    (lower_bound t v = .nil ↔ ∀ x ∈ inorder t, x < v) ∧
    (∀ a u l r p lv, lower_bound t v = .node a u l r p lv →
      u ∈ inorder t ∧ ¬ u < v ∧ ∀ x ∈ inorder t, ¬ x < v → u ≤ x) ∧
    (inorder sample1357.root_ = [1, 3, 5, 7] ∧
      (sample1357.lower_bound 2).star = some 3 ∧ (sample1357.lower_bound 3).star = some 3 ∧
      (sample1357.lower_bound 4).star = some 5 ∧
      sample1357.lower_bound 8 = sample1357.end_) :=
  ⟨(lower_bound_spec t v h).1, (lower_bound_spec t v h).2,
    by decide, by decide, by decide, by decide, by decide⟩

theorem lower_bound_contract_witness :
    BST sample1357.root_ ∧ (lower_bound sample1357.root_ 9 = .nil ↔
      ∀ x ∈ inorder sample1357.root_, x < 9) :=
  ⟨(BST_iff_sorted _).2 (by decide),
    (lower_bound_contract sample1357.root_ 9 ((BST_iff_sorted _).2 (by decide))).1⟩

/-- C5. Find: on a tree in BST order, `find` returns a cell whose value is equivalent to the
query (neither is less than the other) when the query is stored, and returns `nullptr` (the end
iterator, at the level of the set) exactly when the query is not stored. -/
theorem find_contract (t : Tree α) (v : α) (h : BST t) :
    (v ∈ inorder t → ∃ a u l r p lv, find t v = .node a u l r p lv ∧ ¬ v < u ∧ ¬ u < v) ∧
    (find t v = .nil ↔ v ∉ inorder t) ∧
    (∀ size_, Set.find ⟨t, size_⟩ v = Set.end_ ⟨t, size_⟩ ↔ v ∉ inorder t) := by
  have hnil := find_eq_nil_iff t v h
  refine ⟨fun hv => ?_, hnil, fun n => ?_⟩
  · rcases find_value t v with h0 | ⟨a, l, r, p, lv, hf⟩
    · exact absurd hv (hnil.1 h0)
    · exact ⟨a, v, l, r, p, lv, hf, lt_irrefl _, lt_irrefl _⟩
  · rw [← hnil, ← ptr_eq_none_iff]
    simp [Set.find, Set.end_]

theorem find_contract_witness :
    BST sample1357.root_ ∧ (find sample1357.root_ 4 = .nil ↔ 4 ∉ inorder sample1357.root_) :=
  ⟨(BST_iff_sorted _).2 (by decide),
    (find_contract sample1357.root_ 4 ((BST_iff_sorted _).2 (by decide))).2.1⟩

theorem ofList_fold (alloc : Nat → Nat) (xs : List α) (s : Set α) (k : Nat)
    (hb : BST s.root_) (hsz : s.size_ = count s.root_) :
    BST (xs.foldl (fun (acc : Set α × Nat) x => (acc.1.insert x (alloc acc.2), acc.2 + 1))
      (s, k)).1.root_ ∧
    (xs.foldl (fun (acc : Set α × Nat) x => (acc.1.insert x (alloc acc.2), acc.2 + 1))
      (s, k)).1.size_ =
      count (xs.foldl (fun (acc : Set α × Nat) x => (acc.1.insert x (alloc acc.2), acc.2 + 1))
      (s, k)).1.root_ ∧
    ∀ x, x ∈ inorder (xs.foldl (fun (acc : Set α × Nat) x =>
      (acc.1.insert x (alloc acc.2), acc.2 + 1)) (s, k)).1.root_ ↔ x ∈ inorder s.root_ ∨ x ∈ xs := by
  induction xs generalizing s k with
  | nil => simp [hb, hsz]
  | cons y ys ih =>
    simp only [List.foldl_cons]
    have hb2 : BST (s.insert y (alloc k)).root_ := BST_insert _ _ _ _ hb
    have hsz2 : (s.insert y (alloc k)).size_ = count (s.insert y (alloc k)).root_ := by
      simp only [Set.insert, insert_flag _ _ _ _ hb, count_insert _ _ _ _ hb, hsz]
      by_cases hv : y ∈ inorder s.root_ <;> simp [hv]
    obtain ⟨h1, h2, h3⟩ := ih (s.insert y (alloc k)) (k + 1) hb2 hsz2
    refine ⟨h1, h2, fun x => ?_⟩
    rw [h3]
    simp only [Set.insert, mem_inorder_insert, List.mem_cons]
    tauto

/-- C6. Construction from a sequence: the set built by inserting the elements of a finite
sequence in order into the empty set has as in-order value sequence the sorted, duplicate-free
list of the elements, and its `size()` is the number of distinct elements. -/
theorem ofList_contract (alloc : Nat → Nat) (xs : List α) :
    inorder (Set.ofList alloc xs).root_ = xs.toFinset.sort (· ≤ ·) ∧
    (Set.ofList alloc xs).size = xs.toFinset.card := by
  obtain ⟨h1, h2, h3⟩ := ofList_fold alloc xs Set.mk0 0 (by simp [Set.mk0, BST])
    (by simp [Set.mk0, count])
  have hs := (BST_iff_sorted _).1 h1
  have heq : inorder (Set.ofList alloc xs).root_ = xs.toFinset.sort (· ≤ ·) := by
    refine List.eq_of_perm_of_sorted ?_ (hs.imp le_of_lt) (Finset.sort_sorted _ _)
    refine (List.perm_ext_iff_of_nodup hs.nodup (Finset.sort_nodup _ _)).2 fun x => ?_
    rw [Finset.mem_sort, List.mem_toFinset]
    simpa [Set.mk0] using h3 x
  refine ⟨heq, ?_⟩
  have : (Set.ofList alloc xs).size = (inorder (Set.ofList alloc xs).root_).length := by
    rw [length_inorder]; exact h2
  rw [this, heq, Finset.length_sort]

end LookupContracts

/-! ## Parent links and cell addresses under `insert` and `erase` -/

section ParentFacts

theorem ParentOK_setParent (t : Tree α) (q q2 : Option Nat) (h : ParentOK t q) :
    ParentOK (t.setParent q2) q2 := by
  cases t with
  | nil => trivial
  | node a v l r p lv => exact ⟨rfl, h.2.1, h.2.2⟩

theorem setParent_of_ParentOK (t : Tree α) (q : Option Nat) (h : ParentOK t q) :
    t.setParent q = t := by
  cases t with
  | nil => rfl
  | node a v l r p lv => obtain ⟨rfl, -, -⟩ := h; rfl

theorem ParentOK_Update (t : Tree α) (q : Option Nat) (h : ParentOK t q) :
    ParentOK (Update t) q := by
  cases t with
  | nil => trivial
  | node a v l r p lv =>
    exact ⟨h.1, ParentOK_setParent _ _ _ h.2.1, ParentOK_setParent _ _ _ h.2.2⟩

theorem ParentOK_Skew (t : Tree α) (q : Option Nat) (h : ParentOK t q) :
    ParentOK (Skew t) q := by
  rcases t with _ | ⟨a, v, l, r, p, lv⟩
  · trivial
  · rcases l with _ | ⟨b, bv, bl, br, bp, blv⟩
    · exact h
    · simp only [Skew]
      split
      · obtain ⟨h1, ⟨-, h3, h4⟩, h5⟩ := h
        exact ⟨h1, h3, rfl, ParentOK_setParent _ _ _ h4, h5⟩
      · exact h

theorem ParentOK_Split (t : Tree α) (q : Option Nat) (h : ParentOK t q) :
    ParentOK (Split t) q := by
  rcases t with _ | ⟨a, v, l, r, p, lv⟩
  · trivial
  · rcases r with _ | ⟨b, bv, bl, br, bp, blv⟩
    · exact h
    · rcases br with _ | ⟨c, cv, cl, cr, cp, clv⟩
      · exact h
      · simp only [Split]
        split
        · obtain ⟨h1, h2, ⟨-, h4, h5⟩⟩ := h
          exact ⟨h1, ⟨rfl, h2, ParentOK_setParent _ _ _ h4⟩, h5⟩
        · exact h

theorem ParentOK_DecreaseLevel (t : Tree α) (q : Option Nat) (h : ParentOK t q) :
    ParentOK (DecreaseLevel t) q := by
  unfold DecreaseLevel
  split
  · simp only []
    split_ifs <;> exact h
  · exact h

theorem ParentOK_onRight (f : Tree α → Tree α)
    (hf : ∀ t q, ParentOK t q → ParentOK (f t) q) (t : Tree α) (q : Option Nat)
    (h : ParentOK t q) : ParentOK (t.onRight f) q := by
  cases t with
  | nil => trivial
  | node a v l r p lv => exact ⟨h.1, h.2.1, hf _ _ h.2.2⟩

theorem ParentOK_eraseRepair (t : Tree α) (q : Option Nat) (h : ParentOK t q) :
    ParentOK (eraseRepair t) q := by
  unfold eraseRepair
  refine ParentOK_onRight _ ParentOK_Split _ _ (ParentOK_Split _ _ ?_)
  refine ParentOK_onRight _ (ParentOK_onRight _ ParentOK_Skew) _ _ ?_
  exact ParentOK_onRight _ ParentOK_Skew _ _ (ParentOK_Skew _ _ (ParentOK_DecreaseLevel _ _ h))

variable [LinearOrder α]

theorem ParentOK_insert (t : Tree α) (v : α) (w : Bool) (f : Nat) (q : Option Nat)
    (h : ParentOK t q) : ParentOK (insert t v w f).1 (t.ptr.bind fun _ => q) := by
  induction t generalizing w q with
  | nil => exact ⟨rfl, trivial, trivial⟩
  | node a u l r p lv ihl ihr =>
    obtain ⟨h1, h2, h3⟩ := h
    simp only [insert, Tree.ptr, Option.some_bind]
    split_ifs with c1 c2
    · refine ParentOK_Update _ _ (ParentOK_Split _ _ (ParentOK_Skew _ _ ?_))
      exact ⟨h1, ParentOK_setParent _ _ _ (ihl w _ h2), h3⟩
    · refine ParentOK_Update _ _ (ParentOK_Split _ _ (ParentOK_Skew _ _ ?_))
      exact ⟨h1, h2, ParentOK_setParent _ _ _ (ihr w _ h3)⟩
    · exact ParentOK_Update _ _ (ParentOK_Split _ _ (ParentOK_Skew _ _ ⟨h1, h2, h3⟩))

theorem ParentOK_erase (t : Tree α) (v : α) (w : Bool) (q : Option Nat)
    (h : ParentOK t q) : ParentOK (erase t v w).1 q := by
  induction t generalizing v w q with
  | nil => trivial
  | node a u l r p lv ihl ihr =>
    obtain ⟨h1, h2, h3⟩ := h
    simp only [erase]
    split_ifs with c1 c2 c3 c4
    · exact ParentOK_eraseRepair _ _ ⟨h1, ParentOK_setParent _ _ _ (ihl _ w _ h2), h3⟩
    · exact ParentOK_eraseRepair _ _ ⟨h1, h2, ParentOK_setParent _ _ _ (ihr _ w _ h3)⟩
    · trivial
    · exact ParentOK_eraseRepair _ _ ⟨h1, h2, ParentOK_setParent _ _ _ (ihr _ w _ h3)⟩
    · exact ParentOK_eraseRepair _ _ ⟨h1, ParentOK_setParent _ _ _ (ihl _ w _ h2), h3⟩

theorem addrs_insert (t : Tree α) (v : α) (w : Bool) (f : Nat) :
    addrs (insert t v w f).1 = addrs t ∨ (addrs (insert t v w f).1).Perm (f :: addrs t) := by
  induction t generalizing w with
  | nil => right; simp [insert]
  | node a u l r p lv ihl ihr =>
    simp only [insert]
    split_ifs with c1 c2
    · simp only [addrs_Update, addrs_Split, addrs_Skew, addrs_node, addrs_setParent]
      rcases ihl w with h | h
      · left; rw [h]
      · right
        exact (h.append_right _).trans (by simp)
    · simp only [addrs_Update, addrs_Split, addrs_Skew, addrs_node, addrs_setParent]
      rcases ihr w with h | h
      · left; rw [h]
      · right
        refine ((h.cons a).append_left (addrs l)).trans ?_
        refine (List.perm_middle.trans ?_)
        refine (List.Perm.cons a List.perm_middle).trans ?_
        refine (List.Perm.swap _ _ _).trans ?_
        exact List.Perm.cons f List.perm_middle.symm
    · left; simp

theorem addrs_erase (t : Tree α) (v : α) (w : Bool) :
    (addrs (erase t v w).1).Sublist (addrs t) := by
  induction t generalizing v w with
  | nil => simp [erase]
  | node a u l r p lv ihl ihr =>
    simp only [erase]
    split_ifs with c1 c2 c3 c4
    · simp only [addrs_eraseRepair, addrs_node, addrs_setParent]
      exact (ihl v w).append (List.Sublist.refl _)
    · simp only [addrs_eraseRepair, addrs_node, addrs_setParent]
      exact (List.Sublist.refl _).append ((ihr v w).cons₂ a)
    · simp
    · simp only [addrs_eraseRepair, addrs_node, addrs_setParent]
      exact (List.Sublist.refl _).append ((ihr _ w).cons₂ a)
    · simp only [addrs_eraseRepair, addrs_node, addrs_setParent]
      exact (ihl _ w).append (List.Sublist.refl _)

theorem Reachable.nodup_addrs {s : Set α} (h : Reachable s) : (addrs s.root_).Nodup := by
  induction h with
  | empty => simp [Set.mk0]
  | insert s v f _ hf ih =>
    rcases addrs_insert s.root_ v false f with h | h
    · simpa [Set.insert, h] using ih
    · exact h.nodup_iff.2 (List.nodup_cons.2 ⟨hf, ih⟩)
  | erase s v _ ih => exact ih.sublist (addrs_erase _ _ _)

theorem Reachable.parentOK {s : Set α} (h : Reachable s) : ParentOK s.root_ none := by
  induction h with
  | empty => trivial
  | insert s v f _ _ ih =>
    have := ParentOK_insert s.root_ v false f none ih
    cases hp : s.root_.ptr <;> simpa [hp] using this
  | erase s v _ ih => exact ParentOK_erase _ _ _ _ ih

end ParentFacts

/-! ## Following pointers -/

section DerefFacts

theorem deref_of_not_mem (t : Tree α) (a : Nat) (h : a ∉ addrs t) : deref t a = .nil := by
  induction t with
  | nil => rfl
  | node b v l r p lv ihl ihr =>
    simp only [addrs_node, List.mem_append, List.mem_cons, not_or] at h
    simp only [deref, if_neg h.2.1, ihl h.1, ihr h.2.2]

theorem deref_root (b : Nat) (v : α) (l r : Tree α) (p : Option Nat) (lv : Nat) :
    deref (.node b v l r p lv) b = .node b v l r p lv := by
  simp [deref]

theorem deref_of_mem (t : Tree α) (a : Nat) (h : a ∈ addrs t) :
    ∃ v l r p lv, deref t a = .node a v l r p lv := by
  induction t with
  | nil => simp at h
  | node b v l r p lv ihl ihr =>
    by_cases hab : a = b
    · subst hab; exact ⟨_, _, _, _, _, deref_root _ _ _ _ _ _⟩
    · simp only [deref, if_neg hab]
      by_cases hl : a ∈ addrs l
      · obtain ⟨v2, l2, r2, p2, lv2, h2⟩ := ihl hl
        exact ⟨v2, l2, r2, p2, lv2, by rw [h2]⟩
      · rw [deref_of_not_mem l a hl]
        simp only [addrs_node, List.mem_append, List.mem_cons] at h
        exact ihr (by tauto)

theorem deref_left (b : Nat) (v : α) (l r : Tree α) (p : Option Nat) (lv : Nat) (a : Nat)
    (hnd : (addrs (.node b v l r p lv)).Nodup) (h : a ∈ addrs l) :
    deref (.node b v l r p lv) a = deref l a := by
  have hab : a ≠ b := by
    rintro rfl
    simp only [addrs_node] at hnd
    exact (List.nodup_append.1 hnd).2.2 h (by simp)
  obtain ⟨v2, l2, r2, p2, lv2, h2⟩ := deref_of_mem l a h
  simp only [deref, if_neg hab, h2]

theorem deref_right (b : Nat) (v : α) (l r : Tree α) (p : Option Nat) (lv : Nat) (a : Nat)
    (hnd : (addrs (.node b v l r p lv)).Nodup) (h : a ∈ addrs r) :
    deref (.node b v l r p lv) a = deref r a := by
  simp only [addrs_node] at hnd
  have hd := (List.nodup_append.1 hnd)
  have hab : a ≠ b := by
    rintro rfl
    exact (List.nodup_cons.1 hd.2.1).1 h
  have hl : a ∉ addrs l := fun h' => hd.2.2 h' (List.mem_cons_of_mem _ h)
  simp only [deref, if_neg hab, deref_of_not_mem l a hl]

theorem ptr_mem_addrs (t : Tree α) (c : Nat) (h : t.ptr = some c) : c ∈ addrs t := by
  cases t with
  | nil => simp [Tree.ptr] at h
  | node b v l r p lv => simp only [Tree.ptr, Option.some.injEq] at h; subst h; simp

theorem ptr_leftmost (t : Tree α) : (leftmost t).ptr = (addrs t).head? := by
  induction t with
  | nil => rfl
  | node a u l r p lv ihl _ =>
    rcases l with _ | ⟨b, bv, bl, br, bp, blv⟩
    · simp [leftmost, Tree.ptr]
    · simp only [leftmost, ihl, addrs_node]
      simp [List.head?_append]

theorem ptr_rightmost (t : Tree α) : (rightmost t).ptr = (addrs t).getLast? := by
  induction t with
  | nil => rfl
  | node a u l r p lv _ ihr =>
    rcases r with _ | ⟨b, bv, bl, br, bp, blv⟩
    · simp [rightmost, Tree.ptr]
    · rw [rightmost, ihr, addrs_node (r := .node b bv bl br bp blv),
        List.getLast?_append_of_ne_nil _ (List.cons_ne_nil _ _)]
      have hne : addrs (Tree.node b bv bl br bp blv) ≠ [] := by simp
      rw [← List.singleton_append, List.getLast?_append_of_ne_nil _ hne]

theorem headOr_eq (xs : List Nat) (up : Option Nat) (h : xs ≠ []) : headOr xs up = xs.head? := by
  cases xs with
  | nil => exact absurd rfl h
  | cons y ys => rfl

theorem succIn_append_left (l1 l2 : List Nat) (a : Nat) (up : Option Nat) (h : a ∈ l1) :
    succIn (l1 ++ l2) a up = succIn l1 a (headOr l2 up) := by
  induction l1 with
  | nil => simp at h
  | cons x xs ih =>
    simp only [List.cons_append, succIn]
    by_cases hx : x = a
    · simp only [if_pos hx]
      cases xs <;> rfl
    · simp only [if_neg hx]
      exact ih (by simpa [Ne.symm hx] using h)

theorem succIn_append_right (l1 l2 : List Nat) (a : Nat) (up : Option Nat) (h : a ∉ l1) :
    succIn (l1 ++ l2) a up = succIn l2 a up := by
  induction l1 with
  | nil => rfl
  | cons x xs ih =>
    simp only [List.mem_cons, not_or] at h
    simp only [List.cons_append, succIn, if_neg (Ne.symm h.1)]
    exact ih h.2

end DerefFacts

/-! ## `operator++` follows the in-order walk -/

section ForwardFacts

theorem nextPtr_subtree (T : Tree α) (t : Tree α) (q up : Option Nat) (d fuel : Nat)
    (hT : ∀ a ∈ addrs t, deref T a = deref t a)
    (hnd : (addrs t).Nodup) (hp : ParentOK t q)
    (hup : ∀ b, t.ptr = some b → ∀ f, d ≤ f → climbUntilLeft T f b = some up)
    (hfuel : d + height t ≤ fuel + 1) :
    ∀ a ∈ addrs t, nextPtr T fuel a = some (succIn (addrs t) a up) := by
  induction t generalizing q up d with
  | nil => intro a ha; simp at ha
  | node b v l r p lv ihl ihr =>
    obtain ⟨hpq, hpl, hpr⟩ := hp
    have hnd' := hnd
    simp only [addrs_node] at hnd'
    have happ := List.nodup_append.1 hnd'
    have hndl : (addrs l).Nodup := happ.1
    have hndr : (addrs r).Nodup := (List.nodup_cons.1 happ.2.1).2
    have hbr : b ∉ addrs r := (List.nodup_cons.1 happ.2.1).1
    have hbl : b ∉ addrs l := fun h => happ.2.2 h (by simp)
    have hlr : ∀ x ∈ addrs l, x ∉ addrs r := fun x hx hx' =>
      happ.2.2 hx (List.mem_cons_of_mem _ hx')
    have hTb : deref T b = .node b v l r p lv := by
      rw [hT b (by simp), deref_root]
    have hTl : ∀ a ∈ addrs l, deref T a = deref l a := fun a ha => by
      rw [hT a (by simp [ha]), deref_left _ _ _ _ _ _ _ hnd ha]
    have hTr : ∀ a ∈ addrs r, deref T a = deref r a := fun a ha => by
      rw [hT a (by simp [ha]), deref_right _ _ _ _ _ _ _ hnd ha]
    simp only [height] at hfuel
    intro a ha
    simp only [addrs_node, List.mem_append, List.mem_cons] at ha
    rcases ha with ha | rfl | ha
    · -- a cell of the left subtree
      have hupl : ∀ c, l.ptr = some c → ∀ f, 1 ≤ f → climbUntilLeft T f c = some (some b) := by
        intro c hc f hf
        obtain ⟨f', rfl⟩ : ∃ f', f = f' + 1 := ⟨f - 1, by omega⟩
        cases l with
        | nil => simp [Tree.ptr] at hc
        | node c' cv cl cr cp clv =>
          simp only [Tree.ptr, Option.some.injEq] at hc
          subst hc
          obtain ⟨rfl, -, -⟩ := hpl
          simp [climbUntilLeft, hTl c' (by simp), deref_root, hTb, Tree.ptr]
      rw [ihl (some b) (some b) 1 hTl hndl hpl hupl (by omega) a ha, addrs_node,
        succIn_append_left _ _ _ _ ha]
      rfl
    · -- the root cell
      rw [addrs_node, succIn_append_right _ _ _ _ hbl]
      simp only [nextPtr, hTb, succIn, if_true]
      cases r with
      | nil =>
        simp only [Tree.ptr, ne_eq, not_true_eq_false, if_false, addrs_nil, headOr]
        exact hup a rfl fuel (by omega)
      | node c cv cl cr cp clv =>
        have hne : (Tree.node c cv cl cr cp clv).ptr ≠ none := by simp [Tree.ptr]
        rw [if_pos hne, Successor, ptr_leftmost, headOr_eq _ _ (by simp)]
    · -- a cell of the right subtree
      have hab : b ≠ a := fun h => hbr (h ▸ ha)
      have hal : a ∉ addrs l := fun h => hlr a h ha
      have hupr : ∀ c, r.ptr = some c → ∀ f, d + 1 ≤ f → climbUntilLeft T f c = some up := by
        intro c hc f hf
        obtain ⟨f', rfl⟩ : ∃ f', f = f' + 1 := ⟨f - 1, by omega⟩
        have hcl : l.ptr ≠ some c := by
          intro h
          exact hlr c (ptr_mem_addrs l c h) (ptr_mem_addrs r c hc)
        cases r with
        | nil => simp [Tree.ptr] at hc
        | node c' cv cl cr cp clv =>
          simp only [Tree.ptr, Option.some.injEq] at hc
          subst hc
          obtain ⟨rfl, -, -⟩ := hpr
          simp only [climbUntilLeft, hTr c' (by simp), deref_root, hTb, ne_eq, hcl,
            not_false_eq_true, if_true]
          exact hup b rfl f' (by omega)
      rw [ihr (some b) up (d + 1) hTr hndr hpr hupr (by omega) a ha, addrs_node,
        succIn_append_right _ _ _ _ hal]
      simp [succIn, hab]

theorem nextPtr_root (T : Tree α) (fuel : Nat) (hnd : (addrs T).Nodup) (hp : ParentOK T none)
    (hfuel : height T ≤ fuel) :
    ∀ a ∈ addrs T, nextPtr T fuel a = some (succIn (addrs T) a none) := by
  refine nextPtr_subtree T T none none 1 fuel (fun _ _ => rfl) hnd hp ?_ (by omega)
  intro b hb f hf
  obtain ⟨f', rfl⟩ : ∃ f', f = f' + 1 := ⟨f - 1, by omega⟩
  cases T with
  | nil => simp [Tree.ptr] at hb
  | node c cv cl cr cp clv =>
    simp only [Tree.ptr, Option.some.injEq] at hb
    subst hb
    obtain ⟨rfl, -, -⟩ := hp
    simp [climbUntilLeft, deref_root]

theorem height_le_count (t : Tree α) : height t ≤ count t := by
  induction t with
  | nil => exact le_refl _
  | node a v l r p lv ihl ihr => simp only [height, count]; omega

theorem succIn_getElem? (xs : List Nat) (hnd : xs.Nodup) (k : Nat) (a : Nat)
    (h : xs[k]? = some a) : succIn xs a none = xs[k + 1]? := by
  induction xs generalizing k with
  | nil => simp at h
  | cons x ys ih =>
    obtain ⟨hx, hys⟩ := List.nodup_cons.1 hnd
    cases k with
    | zero =>
      simp only [List.getElem?_cons_zero, Option.some.injEq] at h
      subst h
      simp only [succIn, if_true, List.getElem?_cons_succ]
      cases ys <;> simp [headOr]
    | succ k =>
      simp only [List.getElem?_cons_succ] at h
      have hmem : a ∈ ys := List.getElem?_mem h
      have hne : x ≠ a := fun e => hx (e ▸ hmem)
      simp only [succIn, if_neg hne, List.getElem?_cons_succ]
      exact ih hys k h

theorem inc_eq (s : Set α) (a : Nat) (fuel : Nat) :
    iterator.inc fuel ⟨s, some a⟩ = (nextPtr s.root_ fuel a).map fun n => ⟨s, n⟩ := by
  simp only [iterator.inc, nextPtr]
  cases deref s.root_ a with
  | nil => rfl
  | node b v l r p lv =>
    simp only []
    split_ifs <;> rfl

theorem incN_begin (s : Set α) (fuel : Nat) (hnd : (addrs s.root_).Nodup)
    (hp : ParentOK s.root_ none) (hfuel : height s.root_ ≤ fuel) (k : Nat) :
    s.begin.incN fuel k = some ⟨s, (addrs s.root_)[k]?⟩ := by
  induction k with
  | zero => simp [iterator.incN, Set.begin, ptr_leftmost, List.head?_eq_getElem?]
  | succ k ih =>
    simp only [iterator.incN, ih, Option.some_bind]
    by_cases hk : k < (addrs s.root_).length
    · have hget : (addrs s.root_)[k]? = some (addrs s.root_)[k] := List.getElem?_eq_getElem hk
      have hmem : (addrs s.root_)[k] ∈ addrs s.root_ := List.getElem_mem hk
      rw [hget, inc_eq, nextPtr_root _ _ hnd hp hfuel _ hmem]
      rw [succIn_getElem? _ hnd k _ hget]
      rfl
    · have h1 : (addrs s.root_)[k]? = none := List.getElem?_eq_none (by omega)
      have h2 : (addrs s.root_)[k + 1]? = none := List.getElem?_eq_none (by omega)
      rw [h1, h2]
      rfl

theorem map_star_addrs (t : Tree α) (n : Nat) (hnd : (addrs t).Nodup) :
    (addrs t).map (fun a => iterator.star ⟨⟨t, n⟩, some a⟩) = (inorder t).map some := by
  induction t with
  | nil => rfl
  | node b v l r p lv ihl ihr =>
    have hnd' := hnd
    simp only [addrs_node] at hnd'
    have happ := List.nodup_append.1 hnd'
    have hndl : (addrs l).Nodup := happ.1
    have hndr : (addrs r).Nodup := (List.nodup_cons.1 happ.2.1).2
    simp only [addrs_node, inorder_node, List.map_append, List.map_cons]
    congr 1
    · rw [← ihl hndl]
      refine List.map_congr_left fun a ha => ?_
      simp only [iterator.star, deref_left _ _ _ _ _ _ _ hnd ha]
    · congr 1
      · simp [iterator.star, deref_root]
      · rw [← ihr hndr]
        refine List.map_congr_left fun a ha => ?_
        simp only [iterator.star, deref_right _ _ _ _ _ _ _ hnd ha]

theorem star_getElem (s : Set α) (hnd : (addrs s.root_).Nodup) (k : Nat) :
    iterator.star ⟨s, (addrs s.root_)[k]?⟩ = (inorder s.root_)[k]? := by
  by_cases hk : k < (addrs s.root_).length
  · have h := congrArg (fun l => l[k]?) (map_star_addrs s.root_ s.size_ hnd)
    simp only [List.getElem?_map] at h
    rw [List.getElem?_eq_getElem hk] at h ⊢
    have hk' : k < (inorder s.root_).length := by
      rw [length_inorder, ← length_addrs]; exact hk
    rw [List.getElem?_eq_getElem hk'] at h ⊢
    simpa using h
  · have hk' : ¬ k < (inorder s.root_).length := by
      rw [length_inorder, ← length_addrs]; exact hk
    rw [List.getElem?_eq_none (by omega), List.getElem?_eq_none (by omega)]
    rfl

end ForwardFacts

/-! ## `operator--` follows the in-order walk backwards -/

section BackwardFacts

theorem reverse_addrs_node (b : Nat) (v : α) (l r : Tree α) (p : Option Nat) (lv : Nat) :
    (addrs (.node b v l r p lv)).reverse = (addrs r).reverse ++ b :: (addrs l).reverse := by
  simp

theorem prevPtr_subtree (T : Tree α) (t : Tree α) (q down : Option Nat) (d fuel : Nat)
    (hT : ∀ a ∈ addrs t, deref T a = deref t a)
    (hnd : (addrs t).Nodup) (hp : ParentOK t q)
    (hup : ∀ b, t.ptr = some b → ∀ f, d ≤ f → climbUntilRight T f b = some down)
    (hfuel : d + height t ≤ fuel + 1) :
    ∀ a ∈ addrs t, prevPtr T fuel a = some (succIn (addrs t).reverse a down) := by
  induction t generalizing q down d with
  | nil => intro a ha; simp at ha
  | node b v l r p lv ihl ihr =>
    obtain ⟨hpq, hpl, hpr⟩ := hp
    have hnd' := hnd
    simp only [addrs_node] at hnd'
    have happ := List.nodup_append.1 hnd'
    have hndl : (addrs l).Nodup := happ.1
    have hndr : (addrs r).Nodup := (List.nodup_cons.1 happ.2.1).2
    have hbr : b ∉ addrs r := (List.nodup_cons.1 happ.2.1).1
    have hbl : b ∉ addrs l := fun h => happ.2.2 h (by simp)
    have hlr : ∀ x ∈ addrs l, x ∉ addrs r := fun x hx hx' =>
      happ.2.2 hx (List.mem_cons_of_mem _ hx')
    have hTb : deref T b = .node b v l r p lv := by
      rw [hT b (by simp), deref_root]
    have hTl : ∀ a ∈ addrs l, deref T a = deref l a := fun a ha => by
      rw [hT a (by simp [ha]), deref_left _ _ _ _ _ _ _ hnd ha]
    have hTr : ∀ a ∈ addrs r, deref T a = deref r a := fun a ha => by
      rw [hT a (by simp [ha]), deref_right _ _ _ _ _ _ _ hnd ha]
    simp only [height] at hfuel
    intro a ha
    simp only [addrs_node, List.mem_append, List.mem_cons] at ha
    rw [reverse_addrs_node]
    rcases ha with ha | rfl | ha
    · -- a cell of the left subtree
      have hab : b ≠ a := fun h => hbl (h ▸ ha)
      have har : a ∉ (addrs r).reverse := fun h => hlr a ha (List.mem_reverse.1 h)
      have hupl : ∀ c, l.ptr = some c → ∀ f, d + 1 ≤ f → climbUntilRight T f c = some down := by
        intro c hc f hf
        obtain ⟨f', rfl⟩ : ∃ f', f = f' + 1 := ⟨f - 1, by omega⟩
        have hcr : r.ptr ≠ some c := by
          intro h
          exact hlr c (ptr_mem_addrs l c hc) (ptr_mem_addrs r c h)
        cases l with
        | nil => simp [Tree.ptr] at hc
        | node c' cv cl cr cp clv =>
          simp only [Tree.ptr, Option.some.injEq] at hc
          subst hc
          obtain ⟨rfl, -, -⟩ := hpl
          simp only [climbUntilRight, hTl c' (by simp), deref_root, hTb, ne_eq, hcr,
            not_false_eq_true, if_true]
          exact hup b rfl f' (by omega)
      rw [ihl (some b) down (d + 1) hTl hndl hpl hupl (by omega) a ha,
        succIn_append_right _ _ _ _ har]
      simp [succIn, hab]
    · -- the root cell
      have hbr' : a ∉ (addrs r).reverse := fun h => hbr (List.mem_reverse.1 h)
      rw [succIn_append_right _ _ _ _ hbr']
      simp only [prevPtr, hTb, succIn, if_true]
      cases l with
      | nil =>
        simp only [Tree.ptr, ne_eq, not_true_eq_false, if_false, addrs_nil, headOr,
          List.reverse_nil]
        exact hup a rfl fuel (by omega)
      | node c cv cl cr cp clv =>
        have hne : (Tree.node c cv cl cr cp clv).ptr ≠ none := by simp [Tree.ptr]
        rw [if_pos hne, Predicator, ptr_rightmost, headOr_eq _ _ (by simp),
          List.getLast?_eq_head?_reverse]
    · -- a cell of the right subtree
      have har : a ∈ (addrs r).reverse := List.mem_reverse.2 ha
      have hupr : ∀ c, r.ptr = some c → ∀ f, 1 ≤ f → climbUntilRight T f c = some (some b) := by
        intro c hc f hf
        obtain ⟨f', rfl⟩ : ∃ f', f = f' + 1 := ⟨f - 1, by omega⟩
        cases r with
        | nil => simp [Tree.ptr] at hc
        | node c' cv cl cr cp clv =>
          simp only [Tree.ptr, Option.some.injEq] at hc
          subst hc
          obtain ⟨rfl, -, -⟩ := hpr
          simp [climbUntilRight, hTr c' (by simp), deref_root, hTb, Tree.ptr]
      rw [ihr (some b) (some b) 1 hTr hndr hpr hupr (by omega) a ha,
        succIn_append_left _ _ _ _ har]
      rfl

theorem prevPtr_root (T : Tree α) (fuel : Nat) (hnd : (addrs T).Nodup) (hp : ParentOK T none)
    (hfuel : height T ≤ fuel) :
    ∀ a ∈ addrs T, prevPtr T fuel a = some (succIn (addrs T).reverse a none) := by
  refine prevPtr_subtree T T none none 1 fuel (fun _ _ => rfl) hnd hp ?_ (by omega)
  intro b hb f hf
  obtain ⟨f', rfl⟩ : ∃ f', f = f' + 1 := ⟨f - 1, by omega⟩
  cases T with
  | nil => simp [Tree.ptr] at hb
  | node c cv cl cr cp clv =>
    simp only [Tree.ptr, Option.some.injEq] at hb
    subst hb
    obtain ⟨rfl, -, -⟩ := hp
    simp [climbUntilRight, deref_root]

theorem dec_eq (s : Set α) (a : Nat) (fuel : Nat) :
    iterator.dec fuel ⟨s, some a⟩ = (prevPtr s.root_ fuel a).map fun n => ⟨s, n⟩ := by
  simp only [iterator.dec, prevPtr]
  cases deref s.root_ a with
  | nil => rfl
  | node b v l r p lv =>
    simp only []
    split_ifs <;> rfl

theorem decN_end (s : Set α) (fuel : Nat) (hnd : (addrs s.root_).Nodup)
    (hp : ParentOK s.root_ none) (hfuel : height s.root_ ≤ fuel) (hne : s.root_ ≠ .nil)
    (k : Nat) (hk : k ≤ (addrs s.root_).length) :
    s.end_.decN fuel (k + 1) = some ⟨s, (addrs s.root_).reverse[k]?⟩ := by
  induction k with
  | zero =>
    simp only [iterator.decN, Option.some_bind, iterator.dec, Set.end_]
    cases hr : s.root_ with
    | nil => exact absurd hr hne
    | node b v l r p lv =>
      simp only [Option.some.injEq, iterator.mk.injEq, true_and]
      rw [ptr_rightmost, List.getLast?_eq_head?_reverse, List.head?_eq_getElem?]
  | succ k ih =>
    rw [iterator.decN, ih (by omega)]
    have hk' : k < (addrs s.root_).reverse.length := by simpa using hk
    have hget : (addrs s.root_).reverse[k]? = some (addrs s.root_).reverse[k] :=
      List.getElem?_eq_getElem hk'
    have hmem : (addrs s.root_).reverse[k] ∈ addrs s.root_ :=
      List.mem_reverse.1 (List.getElem_mem hk')
    rw [hget, Option.some_bind, dec_eq, prevPtr_root _ _ hnd hp hfuel _ hmem,
      succIn_getElem? _ (List.nodup_reverse.2 hnd) k _ hget]
    rfl

end BackwardFacts

/-! ## Contracts of the iterators -/

section IterationContracts

theorem count_eq_zero_iff (t : Tree α) : count t = 0 ↔ t = .nil := by
  cases t with
  | nil => simp [count]
  | node a v l r p lv => simp [count]

theorem reachable_sample378 : Reachable sample378 :=
  Reachable.erase _ _ (Reachable.insert _ _ _ (Reachable.insert _ _ _ (Reachable.insert _ _ _
    (Reachable.insert _ _ _ Reachable.empty (by decide)) (by decide)) (by decide)) (by decide))

variable [LinearOrder α]

/-- C7. Forward iteration: for every set reachable from the empty set by `insert` and `erase`
calls, `begin()` references the cell with the minimum value (and is `end()` when the set is
empty); applying `operator++` `k` times to `begin()` references the `k`-th value of the
strictly increasing sequence of stored values for every `k < size()`, and gives `end()` for
`k = size()`. -/
theorem forward_iteration (s : Set α) (h : Reachable s) (fuel : Nat) (hf : s.size ≤ fuel) :
    (s.size = 0 → s.begin = s.end_) ∧
    s.begin.star = (inorder s.root_).head? ∧
    (∀ x ∈ inorder s.root_, ∃ m, s.begin.star = some m ∧ m ≤ x) ∧
    (inorder s.root_).Sorted (· < ·) ∧ (inorder s.root_).length = s.size ∧
    (∀ k, k < s.size → ∃ it, s.begin.incN fuel k = some it ∧ it ≠ s.end_ ∧
      it.star = (inorder s.root_)[k]?) ∧
    s.begin.incN fuel s.size = some s.end_ := by
  have hnd := h.nodup_addrs
  have hp := h.parentOK
  have hsz : s.size = count s.root_ := h.size_eq
  have hsorted := (BST_iff_sorted _).1 h.BST_root
  have hfuel : height s.root_ ≤ fuel := (height_le_count _).trans (hsz ▸ hf)
  have hlen : (inorder s.root_).length = s.size := by rw [length_inorder, hsz]
  have hbegin : s.begin = ⟨s, (addrs s.root_)[0]?⟩ := by
    have := incN_begin s fuel hnd hp hfuel 0
    simpa [iterator.incN] using this
  have hstar : s.begin.star = (inorder s.root_).head? := by
    rw [hbegin, star_getElem s hnd 0, List.head?_eq_getElem?]
  refine ⟨fun h0 => ?_, hstar, fun x hx => ?_, hsorted, hlen, fun k hk => ?_, ?_⟩
  · have : s.root_ = .nil := (count_eq_zero_iff _).1 (hsz ▸ h0)
    simp [Set.begin, Set.end_, this, leftmost, Tree.ptr]
  · rw [hstar]
    cases hxs : inorder s.root_ with
    | nil => rw [hxs] at hx; simp at hx
    | cons m rest =>
      rw [hxs] at hx hsorted
      refine ⟨m, rfl, ?_⟩
      rcases List.mem_cons.1 hx with rfl | hx'
      · exact le_refl _
      · exact le_of_lt (List.rel_of_sorted_cons hsorted x hx')
  · refine ⟨_, incN_begin s fuel hnd hp hfuel k, ?_, star_getElem s hnd k⟩
    have hk' : k < (addrs s.root_).length := by rw [length_addrs, ← hsz]; exact hk
    rw [List.getElem?_eq_getElem hk']
    simp [Set.end_]
  · rw [incN_begin s fuel hnd hp hfuel s.size, List.getElem?_eq_none (by
      rw [length_addrs, ← hsz])]
    rfl

theorem forward_iteration_witness :
    Reachable sample378 ∧ sample378.size ≤ 3 ∧
    sample378.begin.incN 3 sample378.size = some sample378.end_ :=
  ⟨reachable_sample378, by decide,
    (forward_iteration sample378 reachable_sample378 3 (by decide)).2.2.2.2.2.2⟩

/-- C8. Bidirectional traversal: for every non-empty set reachable from the empty set by
`insert` and `erase` calls, `operator--` applied to `end()` lands on the cell with the maximum
value; applying it `k + 1` times references the `k`-th value of the strictly decreasing
sequence of stored values, which is the iterator reached by `operator++` from `begin()` at the
mirrored position; and after `size()` steps it arrives at `begin()`. -/
theorem backward_iteration (s : Set α) (h : Reachable s) (hne : s.size ≠ 0) (fuel : Nat)
    (hf : s.size ≤ fuel) :
    (∃ it, s.end_.dec fuel = some it ∧ it.star = (inorder s.root_).getLast? ∧
      ∀ x ∈ inorder s.root_, ∃ m, it.star = some m ∧ x ≤ m) ∧
    (inorder s.root_).reverse.Sorted (· > ·) ∧
    (∀ k, k < s.size → ∃ it, s.end_.decN fuel (k + 1) = some it ∧ it ≠ s.end_ ∧
      it.star = (inorder s.root_).reverse[k]? ∧
      s.begin.incN fuel (s.size - 1 - k) = some it) ∧
    s.end_.decN fuel s.size = some s.begin := by
  have hnd := h.nodup_addrs
  have hp := h.parentOK
  have hsz : s.size = count s.root_ := h.size_eq
  have hsorted := (BST_iff_sorted _).1 h.BST_root
  have hfuel : height s.root_ ≤ fuel := (height_le_count _).trans (hsz ▸ hf)
  have hlen : (inorder s.root_).length = s.size := by rw [length_inorder, hsz]
  have hlena : (addrs s.root_).length = s.size := by rw [length_addrs, hsz]
  have hroot : s.root_ ≠ .nil := fun e => hne (by rw [hsz, e]; rfl)
  have hrev : ∀ k, k < s.size → (addrs s.root_).reverse[k]? = (addrs s.root_)[s.size - 1 - k]? := by
    intro k hk
    rw [List.getElem?_reverse (by omega), hlena]
  have hrevv : ∀ k, k < s.size →
      (inorder s.root_).reverse[k]? = (inorder s.root_)[s.size - 1 - k]? := by
    intro k hk
    rw [List.getElem?_reverse (by omega), hlen]
  have hstep : ∀ k, k < s.size → ∃ it, s.end_.decN fuel (k + 1) = some it ∧ it ≠ s.end_ ∧
      it.star = (inorder s.root_).reverse[k]? ∧
      s.begin.incN fuel (s.size - 1 - k) = some it := by
    intro k hk
    refine ⟨_, decN_end s fuel hnd hp hfuel hroot k (by omega), ?_, ?_, ?_⟩
    · rw [List.getElem?_eq_getElem (by simpa [hlena] using hk)]
      simp [Set.end_]
    · rw [hrev k hk, hrevv k hk, star_getElem s hnd]
    · rw [hrev k hk, incN_begin s fuel hnd hp hfuel]
  have hpos : 0 < s.size := Nat.pos_of_ne_zero hne
  refine ⟨?_, ?_, hstep, ?_⟩
  · obtain ⟨it, h1, -, h3, -⟩ := hstep 0 hpos
    have hstar : it.star = (inorder s.root_).getLast? := by
      rw [h3, List.getLast?_eq_head?_reverse, List.head?_eq_getElem?]
    refine ⟨it, by simpa [iterator.decN] using h1, hstar, fun x hx => ?_⟩
    rw [hstar, List.getLast?_eq_head?_reverse]
    have hx' : x ∈ (inorder s.root_).reverse := List.mem_reverse.2 hx
    have hsr : (inorder s.root_).reverse.Sorted (· > ·) := List.pairwise_reverse.2 hsorted
    cases hxs : (inorder s.root_).reverse with
    | nil => rw [hxs] at hx'; simp at hx'
    | cons m rest =>
      rw [hxs] at hx' hsr
      refine ⟨m, rfl, ?_⟩
      rcases List.mem_cons.1 hx' with rfl | hx''
      · exact le_refl _
      · exact le_of_lt (List.rel_of_sorted_cons hsr x hx'')
  · exact List.pairwise_reverse.2 hsorted
  · obtain ⟨it, h1, -, -, h4⟩ := hstep (s.size - 1) (by omega)
    have e1 : s.size - 1 + 1 = s.size := by omega
    have e2 : s.size - 1 - (s.size - 1) = 0 := by omega
    rw [e1] at h1
    rw [e2] at h4
    simp only [iterator.incN, Option.some.injEq] at h4
    rw [h1, h4]

theorem backward_iteration_witness :
    Reachable sample378 ∧ sample378.size ≠ 0 ∧ sample378.size ≤ 3 ∧
    sample378.end_.decN 3 sample378.size = some sample378.begin :=
  ⟨reachable_sample378, by decide, by decide,
    (backward_iteration sample378 reachable_sample378 (by decide) 3 (by decide)).2.2.2⟩

end IterationContracts

/-! ## `DeepCopy` -/

section CopyFacts

theorem shape_DeepCopy (alloc : Nat → Nat) (t : Tree α) (pred : Option Nat) (k : Nat) :
    shape (DeepCopy alloc t pred k).1 = shape t := by
  induction t generalizing pred k with
  | nil => rfl
  | node a v l r p lv ihl ihr => simp only [DeepCopy, shape, ihl, ihr]

theorem inorder_DeepCopy (alloc : Nat → Nat) (t : Tree α) (pred : Option Nat) (k : Nat) :
    inorder (DeepCopy alloc t pred k).1 = inorder t := by
  induction t generalizing pred k with
  | nil => rfl
  | node a v l r p lv ihl ihr => simp only [DeepCopy, inorder_node, ihl, ihr]

theorem count_DeepCopy (alloc : Nat → Nat) (t : Tree α) (pred : Option Nat) (k : Nat) :
    count (DeepCopy alloc t pred k).1 = count t := by
  rw [← length_inorder, inorder_DeepCopy, length_inorder]

theorem ParentOK_DeepCopy (alloc : Nat → Nat) (t : Tree α) (pred : Option Nat) (k : Nat) :
    ParentOK (DeepCopy alloc t pred k).1 pred := by
  induction t generalizing pred k with
  | nil => trivial
  | node a v l r p lv ihl ihr => exact ⟨rfl, ihl _ _, ihr _ _⟩

theorem DeepCopy_counter (alloc : Nat → Nat) (t : Tree α) (pred : Option Nat) (k : Nat) :
    (DeepCopy alloc t pred k).2 = k + count t := by
  induction t generalizing pred k with
  | nil => rfl
  | node a v l r p lv ihl ihr =>
    simp only [DeepCopy, ihl, ihr, count]
    omega

theorem addrs_DeepCopy (alloc : Nat → Nat) (t : Tree α) (pred : Option Nat) (k : Nat) :
    (addrs (DeepCopy alloc t pred k).1).Perm ((List.range' k (count t)).map alloc) := by
  induction t generalizing pred k with
  | nil => simp [DeepCopy, count]
  | node a v l r p lv ihl ihr =>
    simp only [DeepCopy, addrs_node, count, DeepCopy_counter]
    have e : List.range' k (count l + 1 + count r) =
        k :: (List.range' (k + 1) (count l) ++ List.range' (k + 1 + count l) (count r)) := by
      rw [show count l + 1 + count r = (count r + count l) + 1 by omega, List.range'_succ,
        List.range'_append_1]
    rw [e, List.map_cons, List.map_append]
    refine List.perm_middle.trans (List.Perm.cons _ ?_)
    exact (ihl _ _).append (ihr _ _)

theorem find_of_not_mem [LinearOrder α] (t : Tree α) (v : α) (h : v ∉ inorder t) :
    find t v = .nil := by
  induction t with
  | nil => rfl
  | node a u l r p lv ihl ihr =>
    simp only [inorder_node, List.mem_append, List.mem_cons, not_or] at h
    simp only [find]
    split_ifs with h1 h2
    · exact ihl h.1
    · exact ihr h.2.2
    · exact absurd (eq_of_not_lt_of_not_lt h1 h2) h.2.1

end CopyFacts

section CopyContract
variable [LinearOrder α]

/-- C9. Copy: the tree of the copy has the shape, values and levels of the source; its root
has a null parent and every other cell has the address of its structural parent; the copy has
the size of the source and the same in-order value sequence, which is what iterating the copy
yields; its cells are the freshly allocated ones, none shared with the source, so a later
insertion into the source leaves the copy as it is, and `find` of a value that is not in the
copy returns `end()`. -/
theorem copy_contract (alloc : Nat → Nat) (A : Set α) (x : α) :
    shape (A.copy alloc).root_ = shape A.root_ ∧
    ParentOK (A.copy alloc).root_ none ∧
    (A.copy alloc).size = A.size ∧
    inorder (A.copy alloc).root_ = inorder A.root_ ∧
    (addrs (A.copy alloc).root_).Perm ((List.range (count A.root_)).map alloc) ∧
    ((∀ i, alloc i ∉ addrs A.root_) →
      ∀ a ∈ addrs (A.copy alloc).root_, a ∉ addrs A.root_) ∧
    (Function.Injective alloc → ∀ fuel k, count A.root_ ≤ fuel →
      ∃ it, (A.copy alloc).begin.incN fuel k = some it ∧ it.star = (inorder A.root_)[k]?) ∧
    (Function.Injective alloc → (addrs A.root_).Nodup → ParentOK A.root_ none →
      ∀ fuel k, count A.root_ ≤ fuel →
      ∃ itA itB, A.begin.incN fuel k = some itA ∧ (A.copy alloc).begin.incN fuel k = some itB ∧
        itA.star = itB.star) ∧
    (x ∉ inorder A.root_ → (A.copy alloc).find x = (A.copy alloc).end_) := by
  have hperm : (addrs (A.copy alloc).root_).Perm ((List.range (count A.root_)).map alloc) := by
    have := addrs_DeepCopy alloc A.root_ none 0
    rwa [← List.range_eq_range'] at this
  have hino : inorder (A.copy alloc).root_ = inorder A.root_ := inorder_DeepCopy _ _ _ _
  have hpar : ParentOK (A.copy alloc).root_ none := ParentOK_DeepCopy _ _ _ _
  have hB : Function.Injective alloc → ∀ fuel k, count A.root_ ≤ fuel →
      ∃ it, (A.copy alloc).begin.incN fuel k = some it ∧
        it.star = (inorder A.root_)[k]? := by
    intro hinj fuel k hfuel
    have hnd : (addrs (A.copy alloc).root_).Nodup :=
      hperm.nodup_iff.2 ((List.nodup_range _).map hinj)
    have hh : height (A.copy alloc).root_ ≤ fuel := by
      refine (height_le_count _).trans ?_
      rw [show count (A.copy alloc).root_ = count A.root_ from count_DeepCopy _ _ _ _]
      exact hfuel
    refine ⟨_, incN_begin _ fuel hnd hpar hh k, ?_⟩
    rw [star_getElem _ hnd k, hino]
  refine ⟨shape_DeepCopy _ _ _ _, hpar, rfl, hino, hperm, ?_, hB, ?_, ?_⟩
  · intro hfresh a ha
    obtain ⟨i, -, rfl⟩ := List.mem_map.1 (hperm.mem_iff.1 ha)
    exact hfresh i
  · intro hinj hndA hpA fuel k hfuel
    obtain ⟨itB, h1, h2⟩ := hB hinj fuel k hfuel
    refine ⟨_, itB, incN_begin A fuel hndA hpA ((height_le_count _).trans hfuel) k, h1, ?_⟩
    rw [star_getElem A hndA k, h2]
  · intro hx
    have : find (A.copy alloc).root_ x = .nil := find_of_not_mem _ _ (by rw [hino]; exact hx)
    simp [Set.find, Set.end_, this, Tree.ptr]

theorem copy_contract_witness :
    5 ∉ inorder sample378.root_ ∧
    (sample378.copy (fun i => 1000 + i)).find 5 = (sample378.copy (fun i => 1000 + i)).end_ :=
  ⟨by decide, (copy_contract (fun i => 1000 + i) sample378 5).2.2.2.2.2.2.2.2 (by decide)⟩

end CopyContract

/-! ## Inserting a stored value -/

section DuplicateFacts

theorem shape_setParent (t : Tree α) (q : Option Nat) : shape (t.setParent q) = shape t := by
  cases t <;> rfl

theorem shape_Update (t : Tree α) : shape (Update t) = shape t := by
  cases t <;> simp [Update, shape, shape_setParent]

theorem lvl_of_shape_eq (t1 t2 : Tree α) (h : shape t1 = shape t2) : lvl t1 = lvl t2 := by
  cases t1 <;> cases t2 <;> simp_all [shape, lvl]

theorem Update_of_ParentOK (t : Tree α) (q : Option Nat) (h : ParentOK t q) : Update t = t := by
  cases t with
  | nil => rfl
  | node a v l r p lv =>
    simp only [Update, setParent_of_ParentOK _ _ h.2.1, setParent_of_ParentOK _ _ h.2.2]

theorem Skew_of_lvl_ne (a : Nat) (v : α) (l r : Tree α) (p : Option Nat) (lv : Nat)
    (h : lvl l ≠ lv) : Skew (.node a v l r p lv) = .node a v l r p lv := by
  cases l with
  | nil => rfl
  | node b bv bl br bp blv => simp only [Skew, if_neg (show ¬ blv = lv from h)]

theorem Split_of_no_chain (a : Nat) (v : α) (l r : Tree α) (p : Option Nat) (lv : Nat)
    (h : lvl r.rightOf ≠ lv) : Split (.node a v l r p lv) = .node a v l r p lv := by
  rcases r with _ | ⟨b, bv, bl, br, bp, blv⟩
  · rfl
  · rcases br with _ | ⟨c, cv, cl, cr, cp, clv⟩
    · rfl
    · simp only [Tree.rightOf, lvl] at h
      simp only [Split, if_neg (Ne.symm h)]

theorem chain_of_shape_eq (r r2 : Tree α) (hs : shape r2 = shape r) :
    lvl r2.rightOf = lvl r.rightOf := by
  cases r with
  | nil => cases r2 with
    | nil => rfl
    | node _ _ _ _ _ _ => simp [shape] at hs
  | node b bv bl br bp blv => cases r2 with
    | nil => simp [shape] at hs
    | node c cv cl cr cp clv =>
      simp only [shape, Shape.node.injEq] at hs
      exact lvl_of_shape_eq _ _ hs.2.2.1

variable [LinearOrder α]

theorem insert_duplicate (t : Tree α) (v : α) (w : Bool) (f : Nat) (hb : BST t)
    (ha : AAValid t) (hv : v ∈ inorder t) :
    (insert t v w f).2 = w ∧ shape (insert t v w f).1 = shape t ∧
    (∀ q, ParentOK t q → (insert t v w f).1 = t) := by
  induction t generalizing w with
  | nil => simp at hv
  | node a u l r p lv ihl ihr =>
    obtain ⟨hbl, hbr, hlu, hru⟩ := hb
    obtain ⟨hal, har, hll, hlr, hrr⟩ := ha
    have hskew : lvl l ≠ lv := by omega
    simp only [inorder_node, List.mem_append, List.mem_cons] at hv
    simp only [insert]
    split_ifs with h1 h2
    · have hvl : v ∈ inorder l := by
        rcases hv with h | rfl | h
        · exact h
        · exact absurd h1 (lt_irrefl _)
        · exact absurd (hru _ h) (lt_asymm h1)
      obtain ⟨i1, i2, i3⟩ := ihl w hbl hal hvl
      have hs : shape ((insert l v w f).1.setParent (some a)) = shape l := by
        rw [shape_setParent, i2]
      rw [Skew_of_lvl_ne _ _ _ _ _ _ (by rw [lvl_of_shape_eq _ _ hs]; exact hskew),
        Split_of_no_chain _ _ _ _ _ _ hrr]
      refine ⟨i1, by rw [shape_Update, shape, hs, shape], fun q hq => ?_⟩
      rw [i3 _ hq.2.1, setParent_of_ParentOK _ _ hq.2.1, Update_of_ParentOK _ _ hq]
    · have hvr : v ∈ inorder r := by
        rcases hv with h | rfl | h
        · exact absurd (hlu _ h) (lt_asymm h2)
        · exact absurd h2 (lt_irrefl _)
        · exact h
      obtain ⟨i1, i2, i3⟩ := ihr w hbr har hvr
      have hs : shape ((insert r v w f).1.setParent (some a)) = shape r := by
        rw [shape_setParent, i2]
      rw [Skew_of_lvl_ne _ _ _ _ _ _ hskew,
        Split_of_no_chain _ _ _ _ _ _ (by rw [chain_of_shape_eq _ _ hs]; exact hrr)]
      refine ⟨i1, by rw [shape_Update, shape, hs, shape], fun q hq => ?_⟩
      rw [i3 _ hq.2.2, setParent_of_ParentOK _ _ hq.2.2, Update_of_ParentOK _ _ hq]
    · rw [Skew_of_lvl_ne _ _ _ _ _ _ hskew, Split_of_no_chain _ _ _ _ _ _ hrr]
      exact ⟨rfl, shape_Update (.node a u l r p lv),
        fun q hq => Update_of_ParentOK (.node a u l r p lv) q hq⟩

/-- C10. Duplicate insert makes no structural change: on a tree that is in BST order and obeys
the AA level rules, inserting a value that is already stored leaves the flag as it was (so
`insert(value)` reports nothing inserted), returns a tree of the same shape, values and levels
(the very same tree of cells when the parent links are consistent: `Skew` and `Split` change
nothing on the way back up), and `size()` is unchanged. -/
theorem duplicate_insert_noop (t : Tree α) (v : α) (fresh : Nat) (size_ : Nat) (hb : BST t)
    (ha : AAValid t) (hv : v ∈ inorder t) :
    (insert t v false fresh).2 = false ∧
    shape (insert t v false fresh).1 = shape t ∧
    (∀ q, ParentOK t q → (insert t v false fresh).1 = t) ∧
    (Set.insert ⟨t, size_⟩ v fresh).size = size_ ∧
    shape (Set.insert ⟨t, size_⟩ v fresh).root_ = shape t := by
  obtain ⟨h1, h2, h3⟩ := insert_duplicate t v false fresh hb ha hv
  refine ⟨h1, h2, h3, ?_, h2⟩
  simp [Set.insert, Set.size, h1]

theorem duplicate_insert_noop_witness :
    BST sample1357.root_ ∧ AAValid sample1357.root_ ∧ 5 ∈ inorder sample1357.root_ ∧
    (Set.insert ⟨sample1357.root_, 4⟩ 5 80).size = 4 :=
  have hb : BST sample1357.root_ := (BST_iff_sorted _).2 (by decide)
  have ha : AAValid sample1357.root_ := by
    rw [show sample1357.root_ = .node 32 3 (.node 16 1 .nil .nil (some 32) 1)
      (.node 48 5 .nil (.node 64 7 .nil .nil (some 48) 1) (some 32) 1) none 2 from by decide]
    simp [AAValid, lvl, Tree.rightOf]
  ⟨hb, ha, by decide, (duplicate_insert_noop sample1357.root_ 5 80 4 hb ha (by decide)).2.2.2.1⟩

end DuplicateFacts

/-! ## The balancing primitives: `Skew`, `Split`, `DecreaseLevel` -/

section Balancer

@[simp] theorem cells_setParent (t : Tree α) (q : Option Nat) :
    cells (t.setParent q) = cells t := by
  cases t <;> rfl

theorem inorder_eq_map_cells (t : Tree α) : inorder t = (cells t).map fun c => c.2.1 := by
  induction t with
  | nil => rfl
  | node a v l r p lv ihl ihr => simp [cells, ihl, ihr]

theorem addrs_eq_map_cells (t : Tree α) : addrs t = (cells t).map fun c => c.1 := by
  induction t with
  | nil => rfl
  | node a v l r p lv ihl ihr => simp [cells, ihl, ihr]

/-- C17. Skew: `Skew` returns its input unchanged when the pointer is null, when there is no
left child, or when the level of the left child differs from the level of the node; otherwise
it returns the former left child `L` as the new root of the subtree, with the left subtree of
`L` unchanged, the old node as right child of `L`, and the former right subtree of `L` as left
child of the old node.  In every case the in-order sequence of cells, with their values and
levels, is unchanged. -/
theorem Skew_contract (t : Tree α) :
    (t = .nil → Skew t = .nil) ∧
    (∀ a v r p lv, t = .node a v .nil r p lv → Skew t = t) ∧
    (∀ a v b bv bl br bp blv r p lv, t = .node a v (.node b bv bl br bp blv) r p lv →
      blv ≠ lv → Skew t = t) ∧
    (∀ a v b bv bl br bp blv r p lv, t = .node a v (.node b bv bl br bp blv) r p lv →
      blv = lv →
      Skew t = .node b bv bl (.node a v (br.setParent (some a)) r (some b) lv) p blv ∧
      shape (Skew t) = .node bv (shape bl) (.node v (shape br) (shape r) lv) blv) ∧
    inorder (Skew t) = inorder t ∧ cells (Skew t) = cells t := by
  refine ⟨?_, ?_, ?_, ?_, inorder_Skew t, ?_⟩
  · rintro rfl; rfl
  · rintro a v r p lv rfl; rfl
  · rintro a v b bv bl br bp blv r p lv rfl h
    simp only [Skew, if_neg h]
  · rintro a v b bv bl br bp blv r p lv rfl h
    simp only [Skew, if_pos h, shape, true_and]
    cases br <;> rfl
  · rcases t with _ | ⟨a, v, l, r, p, lv⟩
    · rfl
    · rcases l with _ | ⟨b, bv, bl, br, bp, blv⟩
      · rfl
      · simp only [Skew]
        split <;> simp [cells]

theorem Skew_contract_witness :
    (1 : Nat) = 1 ∧
    Skew (.node 16 5 (.node 32 3 .nil .nil (some 16) 1) .nil none 1 : Tree Nat) =
      .node 32 3 .nil (.node 16 5 .nil .nil (some 32) 1) none 1 :=
  ⟨rfl, ((Skew_contract (.node 16 5 (.node 32 3 .nil .nil (some 16) 1) .nil none 1 :
    Tree Nat)).2.2.2.1 16 5 32 3 .nil .nil (some 16) 1 .nil none 1 rfl rfl).1⟩

/-- C18. Split: `Split` returns its input unchanged unless the node has a right child `R`
that has a right child whose level is the level of the node; in that case it returns `R` as
the new root of the subtree with its level incremented by exactly one, the old node as left
child of `R`, the former left subtree of `R` as right child of the old node, and the right
subtree of `R` unchanged.  In every case the in-order value sequence is unchanged and no other
cell changes its level. -/
theorem Split_contract (t : Tree α) :
    (t = .nil → Split t = .nil) ∧
    (∀ a v l p lv, t = .node a v l .nil p lv → Split t = t) ∧
    (∀ a v l b bv bl bp blv p lv, t = .node a v l (.node b bv bl .nil bp blv) p lv →
      Split t = t) ∧
    (∀ a v l b bv bl c cv cl cr cp clv bp blv p lv,
      t = .node a v l (.node b bv bl (.node c cv cl cr cp clv) bp blv) p lv →
      lv ≠ clv → Split t = t) ∧
    (∀ a v l b bv bl c cv cl cr cp clv bp blv p lv,
      t = .node a v l (.node b bv bl (.node c cv cl cr cp clv) bp blv) p lv →
      lv = clv →
      Split t = .node b bv (.node a v l (bl.setParent (some a)) (some b) lv)
        (.node c cv cl cr cp clv) p (blv + 1) ∧
      shape (Split t) = .node bv (.node v (shape l) (shape bl) lv)
        (shape (.node c cv cl cr cp clv)) (blv + 1) ∧
      cells t = (cells l ++ (a, v, lv) :: cells bl) ++ (b, bv, blv) ::
        cells (.node c cv cl cr cp clv) ∧
      cells (Split t) = (cells l ++ (a, v, lv) :: cells bl) ++ (b, bv, blv + 1) ::
        cells (.node c cv cl cr cp clv)) ∧
    inorder (Split t) = inorder t := by
  refine ⟨?_, ?_, ?_, ?_, ?_, inorder_Split t⟩
  · rintro rfl; rfl
  · rintro a v l p lv rfl; rfl
  · rintro a v l b bv bl bp blv p lv rfl; rfl
  · rintro a v l b bv bl c cv cl cr cp clv bp blv p lv rfl h
    simp only [Split, if_neg h]
  · rintro a v l b bv bl c cv cl cr cp clv bp blv p lv rfl h
    simp only [Split, if_pos h, true_and]
    refine ⟨?_, ?_, ?_⟩
    · cases bl <;> rfl
    · simp [cells]
    · simp [cells]

theorem Split_contract_witness :
    (1 : Nat) = 1 ∧
    Split (.node 16 1 .nil (.node 32 2 .nil (.node 48 3 .nil .nil (some 32) 1) (some 16) 1)
      none 1 : Tree Nat) =
      .node 32 2 (.node 16 1 .nil .nil (some 32) 1) (.node 48 3 .nil .nil (some 32) 1) none 2 :=
  ⟨rfl, ((Split_contract (.node 16 1 .nil (.node 32 2 .nil (.node 48 3 .nil .nil (some 32) 1)
    (some 16) 1) none 1 : Tree Nat)).2.2.2.2.1 16 1 .nil 32 2 .nil 48 3 .nil .nil (some 32) 1
    (some 16) 1 none 1 rfl rfl).1⟩

/-- C19. DecreaseLevel: on a node with fewer than two children `DecreaseLevel` changes
nothing; otherwise, with `m` the smaller of the levels of the two children plus one, the level
of the node becomes the smaller of its level and `m`, and when the level was strictly lowered
and the level of the right child exceeds the new level, the level of the right child is set to
the new level.  Shape, values and all other levels are unchanged and no level is raised. -/
theorem DecreaseLevel_contract (t : Tree α) :
    (∀ a v l r p lv, t = .node a v l r p lv → l = .nil ∨ r = .nil → DecreaseLevel t = t) ∧
    (∀ a v b bv bl br bp blv c cv cl cr cp clv p lv,
      t = .node a v (.node b bv bl br bp blv) (.node c cv cl cr cp clv) p lv →
      DecreaseLevel t = .node a v (.node b bv bl br bp blv)
        (.node c cv cl cr cp
          (if min blv clv + 1 < lv ∧ min blv clv + 1 < clv then min blv clv + 1 else clv))
        p (min lv (min blv clv + 1))) ∧
    inorder (DecreaseLevel t) = inorder t ∧ addrs (DecreaseLevel t) = addrs t ∧
    List.Forall₂ (fun c d => c.1 = d.1 ∧ c.2.1 = d.2.1 ∧ d.2.2 ≤ c.2.2)
      (cells t) (cells (DecreaseLevel t)) := by
  have hrefl : ∀ xs : List (Nat × α × Nat),
      List.Forall₂ (fun c d => c.1 = d.1 ∧ c.2.1 = d.2.1 ∧ d.2.2 ≤ c.2.2) xs xs := by
    intro xs
    induction xs with
    | nil => exact List.Forall₂.nil
    | cons x xs ih => exact List.Forall₂.cons ⟨rfl, rfl, le_refl _⟩ ih
  have hexp : ∀ a v b bv bl br bp blv c cv cl cr cp clv p lv,
      DecreaseLevel (.node a v (.node b bv bl br bp blv) (.node c cv cl cr cp clv) p lv :
        Tree α) = .node a v (.node b bv bl br bp blv)
        (.node c cv cl cr cp
          (if min blv clv + 1 < lv ∧ min blv clv + 1 < clv then min blv clv + 1 else clv))
        p (min lv (min blv clv + 1)) := by
    intro a v b bv bl br bp blv c cv cl cr cp clv p lv
    have hmin : (if blv > clv then clv else blv) = min blv clv := by
      split_ifs with h
      · exact (min_eq_right (le_of_lt h)).symm
      · exact (min_eq_left (not_lt.1 h)).symm
    simp only [DecreaseLevel, hmin]
    by_cases h1 : min blv clv + 1 < lv
    · by_cases h2 : min blv clv + 1 < clv
      · simp only [if_pos h1, if_pos h2, h1, h2, and_self, if_true, min_eq_right (le_of_lt h1)]
      · simp [h1, h2, min_eq_right (le_of_lt h1)]
    · simp only [if_neg h1, h1, false_and, if_false, min_eq_left (not_lt.1 h1)]
  refine ⟨?_, ?_, inorder_DecreaseLevel t, addrs_DecreaseLevel t, ?_⟩
  · rintro a v l r p lv rfl (rfl | rfl)
    · rfl
    · cases l <;> rfl
  · rintro a v b bv bl br bp blv c cv cl cr cp clv p lv rfl
    exact hexp _ _ _ _ _ _ _ _ _ _ _ _ _ _ _ _
  · rcases t with _ | ⟨a, v, l, r, p, lv⟩
    · exact hrefl _
    · rcases l with _ | ⟨b, bv, bl, br, bp, blv⟩
      · exact hrefl _
      · rcases r with _ | ⟨c, cv, cl, cr, cp, clv⟩
        · exact hrefl _
        · rw [hexp]
          simp only [cells, List.append_assoc]
          refine List.rel_append (hrefl _) (List.Forall₂.cons ⟨rfl, rfl, le_refl _⟩ ?_)
          refine List.rel_append (hrefl _) (List.Forall₂.cons ⟨rfl, rfl, min_le_left _ _⟩ ?_)
          refine List.rel_append (hrefl _) (List.Forall₂.cons ⟨rfl, rfl, ?_⟩ (hrefl _))
          show (if min blv clv + 1 < lv ∧ min blv clv + 1 < clv then min blv clv + 1 else clv)
            ≤ clv
          split_ifs with h
          · exact le_of_lt h.2
          · exact le_refl _

theorem DecreaseLevel_contract_witness :
    ((Tree.nil : Tree Nat) = .nil ∨ (Tree.nil : Tree Nat) = .nil) ∧
    DecreaseLevel (.node 16 5 .nil .nil none 2 : Tree Nat) = .node 16 5 .nil .nil none 2 :=
  ⟨Or.inl rfl, (DecreaseLevel_contract (.node 16 5 .nil .nil none 2 : Tree Nat)).1
    16 5 .nil .nil none 2 rfl (Or.inl rfl)⟩

end Balancer

/-! ## Parent links of reachable sets -/

section ParentLinks

theorem parent_of_cell (T t : Tree α) (q : Option Nat)
    (hT : ∀ a ∈ addrs t, deref T a = deref t a) (hnd : (addrs t).Nodup) (hp : ParentOK t q) :
    ∀ a ∈ addrs t, ∃ v l r p lv, deref T a = .node a v l r p lv ∧
      ((t.ptr = some a ∧ p = q) ∨
        (t.ptr ≠ some a ∧ ∃ b bv bl br bp blv, p = some b ∧
          deref T b = .node b bv bl br bp blv ∧ (bl.ptr = some a ∨ br.ptr = some a))) := by
  induction t generalizing q with
  | nil => intro a ha; simp at ha
  | node b v l r p lv ihl ihr =>
    obtain ⟨hpq, hpl, hpr⟩ := hp
    have hnd' := hnd
    simp only [addrs_node] at hnd'
    have happ := List.nodup_append.1 hnd'
    have hndl : (addrs l).Nodup := happ.1
    have hndr : (addrs r).Nodup := (List.nodup_cons.1 happ.2.1).2
    have hbr : b ∉ addrs r := (List.nodup_cons.1 happ.2.1).1
    have hbl : b ∉ addrs l := fun h => happ.2.2 h (by simp)
    have hTb : deref T b = .node b v l r p lv := by
      rw [hT b (by simp), deref_root]
    have hTl : ∀ a ∈ addrs l, deref T a = deref l a := fun a ha => by
      rw [hT a (by simp [ha]), deref_left _ _ _ _ _ _ _ hnd ha]
    have hTr : ∀ a ∈ addrs r, deref T a = deref r a := fun a ha => by
      rw [hT a (by simp [ha]), deref_right _ _ _ _ _ _ _ hnd ha]
    intro a ha
    simp only [addrs_node, List.mem_append, List.mem_cons] at ha
    rcases ha with ha | rfl | ha
    · have hab : b ≠ a := fun h => hbl (h ▸ ha)
      obtain ⟨v2, l2, r2, p2, lv2, hd, hcase⟩ := ihl (some b) hTl hndl hpl a ha
      refine ⟨v2, l2, r2, p2, lv2, hd, Or.inr ⟨by simpa [Tree.ptr] using hab, ?_⟩⟩
      rcases hcase with ⟨h1, h2⟩ | ⟨-, h2⟩
      · exact ⟨b, v, l, r, p, lv, h2, hTb, Or.inl h1⟩
      · exact h2
    · exact ⟨v, l, r, p, lv, hTb, Or.inl ⟨rfl, hpq⟩⟩
    · have hab : b ≠ a := fun h => hbr (h ▸ ha)
      obtain ⟨v2, l2, r2, p2, lv2, hd, hcase⟩ := ihr (some b) hTr hndr hpr a ha
      refine ⟨v2, l2, r2, p2, lv2, hd, Or.inr ⟨by simpa [Tree.ptr] using hab, ?_⟩⟩
      rcases hcase with ⟨h1, h2⟩ | ⟨-, h2⟩
      · exact ⟨b, v, l, r, p, lv, h2, hTb, Or.inr h1⟩
      · exact h2

variable [LinearOrder α]

/-- C16. Parent back-links stay consistent: in every set reachable from the empty set by
`insert` and `erase` calls, the root (if any) has a null parent and is the only cell with a
null parent, and the parent field of every other cell is the address of the cell of which it
is the left or the right child. -/
theorem parent_links_consistent (s : Set α) (h : Reachable s) :
    ParentOK s.root_ none ∧
    (∀ a v l r p lv, s.root_ = .node a v l r p lv → p = none) ∧
    (∀ a ∈ addrs s.root_, ∃ v l r p lv, deref s.root_ a = .node a v l r p lv ∧
      (p = none ↔ s.root_.ptr = some a) ∧
      (s.root_.ptr ≠ some a → ∃ b bv bl br bp blv, p = some b ∧
        deref s.root_ b = .node b bv bl br bp blv ∧ (bl.ptr = some a ∨ br.ptr = some a))) := by
  have hp := h.parentOK
  refine ⟨hp, ?_, fun a ha => ?_⟩
  · rintro a v l r p lv he
    rw [he] at hp
    exact hp.1
  · obtain ⟨v, l, r, p, lv, hd, hcase⟩ :=
      parent_of_cell s.root_ s.root_ none (fun _ _ => rfl) h.nodup_addrs hp a ha
    refine ⟨v, l, r, p, lv, hd, ?_, ?_⟩
    · rcases hcase with ⟨h1, h2⟩ | ⟨h1, b, bv, bl, br, bp, blv, h2, -⟩
      · exact ⟨fun _ => h1, fun _ => h2⟩
      · exact ⟨fun e => (by rw [h2] at e; cases e), fun e => absurd e h1⟩
    · intro hne
      rcases hcase with ⟨h1, -⟩ | ⟨-, h2⟩
      · exact absurd h1 hne
      · exact h2

theorem parent_links_consistent_witness :
    Reachable sample378 ∧ ParentOK sample378.root_ none :=
  ⟨reachable_sample378, (parent_links_consistent sample378 reachable_sample378).1⟩

/-- C20. Stepping past the end is absorbing: `operator++` applied to the end iterator of any
set returns that end iterator (same owner, null node); and in every non-empty set reachable
from the empty set by `insert` and `erase` calls, `operator++` applied to the iterator at the
maximum element yields `end()`. -/
theorem inc_past_end (s : Set α) (fuel : Nat) :
    s.end_.inc fuel = some s.end_ ∧
    (Reachable s → s.size ≠ 0 → s.size ≤ fuel →
      ∃ m, iterator.star ⟨s, (rightmost s.root_).ptr⟩ = some m ∧
        (∀ x ∈ inorder s.root_, x ≤ m) ∧
        s.begin.incN fuel (s.size - 1) = some ⟨s, (rightmost s.root_).ptr⟩ ∧
        iterator.inc fuel ⟨s, (rightmost s.root_).ptr⟩ = some s.end_) := by
  refine ⟨rfl, fun h hne hf => ?_⟩
  have hnd := h.nodup_addrs
  have hp := h.parentOK
  have hsz : s.size = count s.root_ := h.size_eq
  have hsorted := (BST_iff_sorted _).1 h.BST_root
  have hfuel : height s.root_ ≤ fuel := (height_le_count _).trans (hsz ▸ hf)
  have hlen : (inorder s.root_).length = s.size := by rw [length_inorder, hsz]
  have hlena : (addrs s.root_).length = s.size := by rw [length_addrs, hsz]
  have hptr : (rightmost s.root_).ptr = (addrs s.root_)[s.size - 1]? := by
    rw [ptr_rightmost, List.getLast?_eq_getElem?, hlena]
  have hstar : iterator.star ⟨s, (rightmost s.root_).ptr⟩ = (inorder s.root_).getLast? := by
    rw [hptr, star_getElem s hnd, List.getLast?_eq_getElem?, hlen]
  have hpos : 0 < (inorder s.root_).length := by omega
  have hne' : inorder s.root_ ≠ [] := List.ne_nil_of_length_pos hpos
  refine ⟨(inorder s.root_).getLast hne', ?_, ?_, ?_, ?_⟩
  · rw [hstar, List.getLast?_eq_getLast _ hne']
  · intro x hx
    have hsr : (inorder s.root_).reverse.Sorted (· > ·) := List.pairwise_reverse.2 hsorted
    have hx' : x ∈ (inorder s.root_).reverse := List.mem_reverse.2 hx
    have hrev : (inorder s.root_).reverse =
        (inorder s.root_).getLast hne' :: (inorder s.root_).dropLast.reverse := by
      conv_lhs => rw [← List.dropLast_append_getLast hne']
      simp
    rw [hrev] at hx' hsr
    rcases List.mem_cons.1 hx' with rfl | hx''
    · exact le_refl _
    · exact le_of_lt (List.rel_of_sorted_cons hsr x hx'')
  · rw [incN_begin s fuel hnd hp hfuel, hptr]
  · have h1 := incN_begin s fuel hnd hp hfuel (s.size - 1)
    have h2 := incN_begin s fuel hnd hp hfuel (s.size - 1 + 1)
    rw [iterator.incN, h1, Option.some_bind] at h2
    rw [hptr, h2, List.getElem?_eq_none (by omega)]
    rfl

theorem inc_past_end_witness :
    Reachable sample378 ∧ sample378.size ≠ 0 ∧ sample378.size ≤ 3 ∧
    iterator.inc 3 ⟨sample378, (rightmost sample378.root_).ptr⟩ = some sample378.end_ :=
  ⟨reachable_sample378, by decide, by decide,
    by
      obtain ⟨m, -, -, -, h⟩ :=
        (inc_past_end sample378 3).2 reachable_sample378 (by decide) (by decide)
      exact h⟩

end ParentLinks

/-! ## The AA level rules under `insert` -/

section LevelRules

@[simp] theorem lvl_nil : lvl (Tree.nil : Tree α) = 0 := rfl

@[simp] theorem lvl_node (a : Nat) (v : α) (l r : Tree α) (p : Option Nat) (lv : Nat) :
    lvl (.node a v l r p lv) = lv := rfl

@[simp] theorem rightOf_nil : (Tree.nil : Tree α).rightOf = .nil := rfl

@[simp] theorem rightOf_node (a : Nat) (v : α) (l r : Tree α) (p : Option Nat) (lv : Nat) :
    (Tree.node a v l r p lv).rightOf = r := rfl

theorem lvl_setParent (t : Tree α) (q : Option Nat) : lvl (t.setParent q) = lvl t := by
  cases t <;> rfl

theorem rightOf_setParent (t : Tree α) (q : Option Nat) :
    (t.setParent q).rightOf = t.rightOf := by
  cases t <;> rfl

theorem AAValid_setParent (t : Tree α) (q : Option Nat) :
    AAValid (t.setParent q) ↔ AAValid t := by
  cases t <;> simp [Tree.setParent, AAValid]

theorem lvl_Update (t : Tree α) : lvl (Update t) = lvl t := by
  cases t <;> rfl

theorem lvl_rightOf_Update (t : Tree α) : lvl (Update t).rightOf = lvl t.rightOf := by
  cases t with
  | nil => rfl
  | node a v l r p lv => simp [Update, Tree.rightOf, lvl_setParent]

theorem AAValid_Update (t : Tree α) : AAValid (Update t) ↔ AAValid t := by
  cases t with
  | nil => simp [Update]
  | node a v l r p lv =>
    simp [Update, AAValid, AAValid_setParent, lvl_setParent, rightOf_setParent]

theorem lvl_rightOf_le (t : Tree α) (h : AAValid t) : lvl t.rightOf ≤ lvl t := by
  cases t with
  | nil => exact le_refl _
  | node a v l r p lv =>
    obtain ⟨-, -, -, hr, -⟩ := h
    simp only [rightOf_node, lvl_node]
    omega

/-- The repair `Split(Skew(root))` after an insertion below `root->left`. -/
theorem rebalance_left (a : Nat) (u : α) (l r : Tree α) (p : Option Nat) (lv : Nat)
    (hl : AAValid l) (hr : AAValid r) (hrl : lvl r = lv ∨ lvl r + 1 = lv)
    (hrr : lvl r.rightOf ≠ lv)
    (hcase : lvl l + 1 = lv ∨ (lvl l = lv ∧ lvl l.rightOf + 1 = lv)) :
    AAValid (Split (Skew (.node a u l r p lv))) ∧
    (lvl (Split (Skew (.node a u l r p lv))) = lv ∨
      (lvl (Split (Skew (.node a u l r p lv))) = lv + 1 ∧
        lvl (Split (Skew (.node a u l r p lv))).rightOf + 1 =
          lvl (Split (Skew (.node a u l r p lv))))) ∧
    (lvl r ≠ lv → lvl (Split (Skew (.node a u l r p lv))) = lv) := by
  rcases hcase with h1 | ⟨h1, h2⟩
  · rw [Skew_of_lvl_ne _ _ _ _ _ _ (by omega), Split_of_no_chain _ _ _ _ _ _ hrr]
    exact ⟨⟨hl, hr, h1, hrl, hrr⟩, Or.inl rfl, fun _ => rfl⟩
  · rcases l with _ | ⟨b, bv, bl, br, bp, blv⟩
    · simp only [rightOf_nil, lvl_nil] at h1 h2
      omega
    · simp only [lvl_node] at h1
      subst h1
      simp only [rightOf_node] at h2
      obtain ⟨hbl, hbr, hbll, -, hbrr⟩ := hl
      have hbr' : AAValid (br.setParent (some a)) := (AAValid_setParent _ _).2 hbr
      have hinner : AAValid (.node a u (br.setParent (some a)) r (some b) blv) :=
        ⟨hbr', hr, by rw [lvl_setParent]; exact h2, hrl, hrr⟩
      simp only [Skew, if_true]
      rcases r with _ | ⟨c, cv, cl, cr, cp, clv⟩
      · refine ⟨⟨hbl, hinner, hbll, Or.inl rfl, ?_⟩, Or.inl rfl, fun _ => rfl⟩
        simp only [rightOf_node, lvl_nil]
        omega
      · by_cases hc : blv = clv
        · subst hc
          simp only [Split, if_true]
          have hle := lvl_rightOf_le _ hr
          simp only [lvl_node] at hle
          refine ⟨⟨⟨hbl, (AAValid_setParent _ _).2 hbr', hbll, ?_, ?_⟩, hr, rfl, Or.inr rfl, ?_⟩,
            Or.inr ⟨rfl, rfl⟩, fun h => absurd rfl h⟩
          · right; rw [lvl_setParent, lvl_setParent]; exact h2
          · rw [rightOf_setParent, rightOf_setParent]; exact hbrr
          · omega
        · simp only [Split, if_neg hc]
          exact ⟨⟨hbl, hinner, hbll, Or.inl rfl, fun h => hc h.symm⟩, Or.inl rfl, fun _ => rfl⟩

/-- The repair `Split(Skew(root))` after an insertion below `root->right`. -/
theorem rebalance_right (a : Nat) (u : α) (l r : Tree α) (p : Option Nat) (lv : Nat)
    (hl : AAValid l) (hll : lvl l + 1 = lv) (hr : AAValid r)
    (hrl : lvl r = lv ∨ lvl r + 1 = lv) :
    AAValid (Split (Skew (.node a u l r p lv))) ∧
    (lvl (Split (Skew (.node a u l r p lv))) = lv ∨
      (lvl (Split (Skew (.node a u l r p lv))) = lv + 1 ∧
        lvl (Split (Skew (.node a u l r p lv))).rightOf + 1 =
          lvl (Split (Skew (.node a u l r p lv))))) ∧
    (lvl r.rightOf ≠ lv → lvl (Split (Skew (.node a u l r p lv))) = lv) := by
  rw [Skew_of_lvl_ne _ _ _ _ _ _ (by omega)]
  by_cases hrr : lvl r.rightOf = lv
  · rcases r with _ | ⟨c, cv, cl, cr, cp, clv⟩
    · simp only [rightOf_nil, lvl_nil] at hrr
      omega
    · rcases cr with _ | ⟨d, dv, dl, dr, dp, dlv⟩
      · simp only [rightOf_node, lvl_nil] at hrr
        omega
      · simp only [rightOf_node, lvl_node] at hrr
        subst hrr
        obtain ⟨hcl, hcr, hcll, hcrl, hcrr⟩ := hr
        simp only [lvl_node] at hrl hcrl hcll
        have hclv : clv = dlv := by omega
        subst hclv
        have hle := lvl_rightOf_le _ hcl
        have hle2 := lvl_rightOf_le _ hcr
        simp only [lvl_node] at hle2
        simp only [Split, if_true]
        refine ⟨⟨⟨hl, (AAValid_setParent _ _).2 hcl, hll, ?_, ?_⟩, hcr, rfl, Or.inr rfl, ?_⟩,
          Or.inr ⟨rfl, rfl⟩, fun h => absurd rfl h⟩
        · right; rw [lvl_setParent]; exact hcll
        · rw [rightOf_setParent]; omega
        · omega
  · rw [Split_of_no_chain _ _ _ _ _ _ hrr]
    exact ⟨⟨hl, hr, hll, hrl, hrr⟩, Or.inl rfl, fun _ => rfl⟩

theorem height_le_of_AAValid (t : Tree α) (h : AAValid t) :
    height t ≤ 2 * lvl t ∧ (lvl t.rightOf ≠ lvl t → height t + 1 ≤ 2 * lvl t) := by
  induction t with
  | nil => simp [height]
  | node a v l r p lv ihl ihr =>
    obtain ⟨hl, hr, hll, hrl, hrr⟩ := h
    obtain ⟨il, -⟩ := ihl hl
    obtain ⟨ir1, ir2⟩ := ihr hr
    simp only [height, lvl_node, rightOf_node]
    rcases hrl with e | e
    · have := ir2 (by rw [e]; exact hrr)
      refine ⟨?_, fun hne => absurd e hne⟩
      rcases max_cases (height l) (height r) with ⟨hm, -⟩ | ⟨hm, -⟩ <;> rw [hm] <;> omega
    · have hh : max (height l) (height r) + 1 + 1 ≤ 2 * lv := by
        rcases max_cases (height l) (height r) with ⟨hm, -⟩ | ⟨hm, -⟩ <;> rw [hm] <;> omega
      exact ⟨by omega, fun _ => hh⟩

theorem pow_lvl_le_count (t : Tree α) (h : AAValid t) : 2 ^ lvl t ≤ count t + 1 := by
  induction t with
  | nil => simp [count]
  | node a v l r p lv ihl ihr =>
    obtain ⟨hl, hr, hll, hrl, -⟩ := h
    have il := ihl hl
    have ir := ihr hr
    simp only [lvl_node, count]
    have e1 : lv = lvl l + 1 := hll.symm
    have e2 : 2 ^ lvl l ≤ 2 ^ lvl r := Nat.pow_le_pow_right (by decide) (by omega)
    rw [e1, Nat.pow_succ]
    omega

theorem balance_of_AAValid (t : Tree α) (h : AAValid t) :
    2 ^ height t ≤ (count t + 1) ^ 2 ∧ height t ≤ 2 * Nat.log 2 (count t + 1) := by
  have h1 := (height_le_of_AAValid t h).1
  have h2 := pow_lvl_le_count t h
  constructor
  · calc 2 ^ height t ≤ 2 ^ (2 * lvl t) := Nat.pow_le_pow_right (by decide) h1
      _ = (2 ^ lvl t) ^ 2 := by rw [Nat.mul_comm, Nat.pow_mul]
      _ ≤ (count t + 1) ^ 2 := Nat.pow_le_pow_left h2 2
  · have : lvl t ≤ Nat.log 2 (count t + 1) := Nat.le_log_of_pow_le (by decide) h2
    omega


variable [LinearOrder α]

theorem AAValid_insert_aux (t : Tree α) (v : α) (w : Bool) (f : Nat) (h : AAValid t) :
    AAValid (insert t v w f).1 ∧
    (lvl (insert t v w f).1 = lvl t ∨
      (lvl (insert t v w f).1 = lvl t + 1 ∧
        lvl (insert t v w f).1.rightOf + 1 = lvl (insert t v w f).1)) ∧
    (lvl t.rightOf ≠ lvl t → lvl (insert t v w f).1 = lvl t) := by
  induction t generalizing w with
  | nil =>
    simp [insert, AAValid]
  | node a u l r p lv ihl ihr =>
    obtain ⟨hl, hr, hll, hrl, hrr⟩ := h
    simp only [insert]
    split_ifs with h1 h2 <;>
      simp only [AAValid_Update, lvl_Update, lvl_rightOf_Update, lvl_node, rightOf_node]
    · obtain ⟨i1, i2, -⟩ := ihl w hl
      refine rebalance_left a u _ r p lv ((AAValid_setParent _ _).2 i1) hr hrl hrr ?_
      rw [lvl_setParent, rightOf_setParent]
      rcases i2 with e | ⟨e1, e2⟩
      · left; omega
      · right; exact ⟨by omega, by omega⟩
    · obtain ⟨i1, i2, i3⟩ := ihr w hr
      have hle := lvl_rightOf_le _ i1
      have key := rebalance_right a u l ((insert r v w f).1.setParent (some a)) p lv hl hll
        ((AAValid_setParent _ _).2 i1) (by
          rw [lvl_setParent]
          rcases hrl with e | e
          · left; rw [i3 (by rw [e]; exact hrr), e]
          · rcases i2 with e2 | ⟨e2, -⟩
            · right; omega
            · left; omega)
      refine ⟨key.1, key.2.1, fun hne => key.2.2 ?_⟩
      rw [rightOf_setParent]
      have e : lvl r + 1 = lv := by
        rcases hrl with e | e
        · exact absurd e hne
        · exact e
      rcases i2 with e2 | ⟨e2, e3⟩
      · omega
      · omega
    · rw [Skew_of_lvl_ne _ _ _ _ _ _ (by omega), Split_of_no_chain _ _ _ _ _ _ hrr]
      exact ⟨⟨hl, hr, hll, hrl, hrr⟩, Or.inl rfl, fun _ => rfl⟩

theorem InsertOnly.reachable {s : Set α} (h : InsertOnly s) : Reachable s := by
  induction h with
  | empty => exact Reachable.empty
  | insert s v f _ hf ih => exact Reachable.insert s v f ih hf

theorem InsertOnly.AAValid_root {s : Set α} (h : InsertOnly s) : AAValid s.root_ := by
  induction h with
  | empty => trivial
  | insert s v f _ _ ih => exact (AAValid_insert_aux s.root_ v false f ih).1

theorem insertOnly_sample1357 : InsertOnly sample1357 :=
  InsertOnly.insert _ _ _ (InsertOnly.insert _ _ _ (InsertOnly.insert _ _ _
    (InsertOnly.insert _ _ _ InsertOnly.empty (by decide)) (by decide)) (by decide)) (by decide)

/-- C12. Balance bound for insertions: in every set built from the empty set by `insert`
calls only, holding `n` values, the height `h` of the tree (the number of cells on the longest
path from the root to a leaf) satisfies `2^h ≤ (n+1)^2`, that is `h ≤ 2·log2(n+1)`. -/
theorem insert_only_balanced (s : Set α) (h : InsertOnly s) :
    2 ^ height s.root_ ≤ (s.size + 1) ^ 2 ∧ height s.root_ ≤ 2 * Nat.log 2 (s.size + 1) ∧
    s.size = (inorder s.root_).length := by
  have hsz : s.size = count s.root_ := h.reachable.size_eq
  rw [hsz, length_inorder]
  exact ⟨(balance_of_AAValid _ h.AAValid_root).1, (balance_of_AAValid _ h.AAValid_root).2, rfl⟩

theorem insert_only_balanced_witness :
    InsertOnly sample1357 ∧ 2 ^ height sample1357.root_ ≤ (sample1357.size + 1) ^ 2 :=
  ⟨insertOnly_sample1357, (insert_only_balanced sample1357 insertOnly_sample1357).1⟩

/-- C13. Insert preserves the AA level invariant: a missing child counting as level 0, when
in a tree in BST order every left child is exactly one level below its parent, every right
child is at the level of its parent or one below, and no right grandchild is at the level of
its grandparent, the same holds of the tree returned by `insert` (which is again in BST
order). -/
theorem insert_preserves_AAValid (t : Tree α) (v : α) (w : Bool) (fresh : Nat)
    (hb : BST t) (ha : AAValid t) :
    AAValid (insert t v w fresh).1 ∧ BST (insert t v w fresh).1 :=
  ⟨(AAValid_insert_aux t v w fresh ha).1, BST_insert t v w fresh hb⟩

theorem AAValid_sample1357 : AAValid sample1357.root_ := insertOnly_sample1357.AAValid_root

theorem insert_preserves_AAValid_witness :
    BST sample1357.root_ ∧ AAValid sample1357.root_ ∧
    AAValid (insert sample1357.root_ 4 false 80).1 :=
  ⟨(BST_iff_sorted _).2 (by decide), AAValid_sample1357,
    (insert_preserves_AAValid sample1357.root_ 4 false 80 ((BST_iff_sorted _).2 (by decide))
      AAValid_sample1357).1⟩

end LevelRules

/-! ## Erasure and the AA level rules -/

section EraseLevels

theorem AAValid_of_shape_eq (t1 t2 : Tree α) (h : shape t1 = shape t2) :
    AAValid t1 ↔ AAValid t2 := by
  induction t1 generalizing t2 with
  | nil =>
    cases t2 with
    | nil => rfl
    | node _ _ _ _ _ _ => simp [shape] at h
  | node a v l r p lv ihl ihr =>
    cases t2 with
    | nil => simp [shape] at h
    | node a2 v2 l2 r2 p2 lv2 =>
      simp only [shape, Shape.node.injEq] at h
      obtain ⟨-, hl, hr, rfl⟩ := h
      simp only [AAValid, ihl l2 hl, ihr r2 hr, lvl_of_shape_eq _ _ hl, lvl_of_shape_eq _ _ hr,
        chain_of_shape_eq _ _ hr]

theorem Skew_of_AAValid (t : Tree α) (h : AAValid t) : Skew t = t := by
  cases t with
  | nil => rfl
  | node a v l r p lv => exact Skew_of_lvl_ne _ _ _ _ _ _ (by have := h.2.2.1; omega)

theorem Split_of_AAValid (t : Tree α) (h : AAValid t) : Split t = t := by
  cases t with
  | nil => rfl
  | node a v l r p lv => exact Split_of_no_chain _ _ _ _ _ _ h.2.2.2.2

theorem DecreaseLevel_of_AAValid (t : Tree α) (h : AAValid t) : DecreaseLevel t = t := by
  rcases t with _ | ⟨a, v, l, r, p, lv⟩
  · rfl
  · rcases l with _ | ⟨b, bv, bl, br, bp, blv⟩
    · rfl
    · rcases r with _ | ⟨c, cv, cl, cr, cp, clv⟩
      · rfl
      · obtain ⟨-, -, hll, hrl, -⟩ := h
        simp only [lvl_node] at hll hrl
        have hopt : ¬ (if blv > clv then clv else blv) + 1 < lv := by
          split_ifs <;> omega
        simp only [DecreaseLevel, if_neg hopt]

theorem eraseRepair_of_AAValid (t : Tree α) (h : AAValid t) : eraseRepair t = t := by
  cases t with
  | nil => rfl
  | node a v l r p lv =>
    have hr : AAValid r := h.2.1
    have hrr : AAValid r.rightOf := by
      cases r with
      | nil => trivial
      | node c cv cl cr cp clv => exact hr.2.1
    have e1 : Tree.onRight Skew (.node a v l r p lv) = .node a v l r p lv := by
      simp only [Tree.onRight, Skew_of_AAValid r hr]
    have e2 : Tree.onRight (Tree.onRight Skew) (.node a v l r p lv) = .node a v l r p lv := by
      cases r with
      | nil => rfl
      | node c cv cl cr cp clv =>
        simp only [Tree.onRight, Skew_of_AAValid cr hrr]
    have e3 : Tree.onRight Split (.node a v l r p lv) = .node a v l r p lv := by
      simp only [Tree.onRight, Split_of_AAValid r hr]
    simp only [eraseRepair, DecreaseLevel_of_AAValid _ h, Skew_of_AAValid _ h, e1, e2,
      Split_of_AAValid _ h, e3]

variable [LinearOrder α]

/-- On a tree that obeys the AA level rules, erasing a value that is not stored changes neither
the flag nor the shape, values and levels of the tree. -/
theorem erase_absent_of_AAValid (t : Tree α) (v : α) (w : Bool) (ha : AAValid t)
    (hv : v ∉ inorder t) : (erase t v w).2 = w ∧ shape (erase t v w).1 = shape t := by
  induction t generalizing w with
  | nil => exact ⟨rfl, rfl⟩
  | node a u l r p lv ihl ihr =>
    simp only [inorder_node, List.mem_append, List.mem_cons, not_or] at hv
    have hl : AAValid l := ha.1
    have hr : AAValid r := ha.2.1
    simp only [erase]
    split_ifs with h1 h2 h3 h4
    · obtain ⟨i1, i2⟩ := ihl w hl hv.1
      have hs : shape (.node a u ((erase l v w).1.setParent (some a)) r p lv) =
          shape (.node a u l r p lv) := by
        simp only [shape, shape_setParent, i2]
      rw [eraseRepair_of_AAValid _ ((AAValid_of_shape_eq _ _ hs).2 ha)]
      exact ⟨i1, hs⟩
    · obtain ⟨i1, i2⟩ := ihr w hr hv.2.2
      have hs : shape (.node a u l ((erase r v w).1.setParent (some a)) p lv) =
          shape (.node a u l r p lv) := by
        simp only [shape, shape_setParent, i2]
      rw [eraseRepair_of_AAValid _ ((AAValid_of_shape_eq _ _ hs).2 ha)]
      exact ⟨i1, hs⟩
    · exact absurd (eq_of_not_lt_of_not_lt h1 h2) hv.2.1
    · exact absurd (eq_of_not_lt_of_not_lt h1 h2) hv.2.1
    · exact absurd (eq_of_not_lt_of_not_lt h1 h2) hv.2.1

theorem reachable_run (calls : List (Call α)) (s : Set α) (h : Reachable s)
    (hf : freshCalls s calls = true) : Reachable (s.run calls) := by
  induction calls generalizing s with
  | nil => exact h
  | cons c cs ih =>
    cases c with
    | insert v f =>
      simp only [freshCalls, Bool.and_eq_true, decide_eq_true_eq] at hf
      exact ih _ (Reachable.insert s v f h hf.1) hf.2
    | erase v =>
      simp only [freshCalls] at hf
      exact ih _ (Reachable.erase s v h) hf

/-- C11, at the failing input: after the eleven calls of `callsHighRoot` the value 0 is not
stored, and `erase(0)` keeps the size and the values but lowers the level of the root from 3
to 2, so the tree is not the same. -/
theorem erase_absent_changes_level :
    Reachable (Set.mk0.run callsHighRoot) ∧
    0 ∉ inorder (Set.mk0.run callsHighRoot).root_ ∧
    ((Set.mk0.run callsHighRoot).erase 0).size = (Set.mk0.run callsHighRoot).size ∧
    inorder ((Set.mk0.run callsHighRoot).erase 0).root_ =
      inorder (Set.mk0.run callsHighRoot).root_ ∧
    lvl (Set.mk0.run callsHighRoot).root_ = 3 ∧
    lvl ((Set.mk0.run callsHighRoot).erase 0).root_ = 2 ∧
    shape ((Set.mk0.run callsHighRoot).erase 0).root_ ≠ shape (Set.mk0.run callsHighRoot).root_ :=
  ⟨reachable_run _ _ Reachable.empty (by decide), by decide, by decide, by decide, by decide,
    by decide, by decide⟩

/-- C14, at the failing input: the tree of {1, 2, 3} built by three insertions is in BST order
and obeys the AA level rules; after `erase(1)` the root keeps level 2 although it has no left
child, so the tree returned by `erase` does not obey them. -/
theorem erase_breaks_AAValid :
    Reachable sample123 ∧ BST sample123.root_ ∧ AAValid sample123.root_ ∧
    shape (erase sample123.root_ 1 false).1 = .node 2 .nil (.node 3 .nil .nil 1) 2 ∧
    ¬ AAValid (erase sample123.root_ 1 false).1 :=
  ⟨reachable_run _ _ Reachable.empty (by decide), (BST_iff_sorted _).2 (by decide), by decide,
    by decide, by decide⟩

/-- C15, at the failing input: after the twenty-two calls of `callsChain` the set holds 6
values and its tree has height 6 (every cell has only a right child), so `2^h ≤ (n+1)^2`
fails: 64 > 49. -/
theorem erase_unbalances :
    Reachable (Set.mk0.run callsChain) ∧
    (Set.mk0.run callsChain).size = 6 ∧ inorder (Set.mk0.run callsChain).root_ = [2, 3, 4, 5, 6, 7] ∧
    height (Set.mk0.run callsChain).root_ = 6 ∧
    ¬ 2 ^ height (Set.mk0.run callsChain).root_ ≤ ((Set.mk0.run callsChain).size + 1) ^ 2 :=
  ⟨reachable_run _ _ Reachable.empty (by decide), by decide, by decide, by decide, by decide⟩

end EraseLevels

end AASet
